import Mathlib

/-!
Shallow embedding of the snob Gaussian-mixture MML engine
(src/snob/mixture_ka.py and src/snob/mixture_search.py) over the exact
real numbers, together with theorems settling the specification claims.

Modelling conventions:
* `numpy` float arrays become lists of real numbers / real vectors
  (`Fin D → ℝ`) / matrices (`Matrix (Fin D) (Fin D) ℝ`); float arithmetic
  becomes exact real arithmetic.
* The SVD-based matrix inversion `V.T @ inv(diag(S)) @ U.T` used by the
  sources equals the mathematical matrix inverse for every invertible
  matrix, so it is embedded as `Matrix.inv`.
* The top right-singular-vector `V[0]` and top singular value `S[0]` of
  `np.linalg.svd`, and scipy's Cholesky factorization, have no closed
  form; defs that need them take them as explicit function parameters and
  the theorems hold for every choice of these parameters.
* Python `assert` / `raise` become `Except` results.
-/

noncomputable section

namespace Snob

/-- `np.clip(x, lo, hi)`: values below `lo` become `lo`, above `hi` become `hi`. -/
def clip (lo hi x : ℝ) : ℝ := max lo (min x hi)

/-- The value of the expression `7./3 - 4./3 - 1` in IEEE double precision
(the "machine precision" constant of mixture_ka.py lines 241 and 632):
the double rounding makes it `2 ^ (-52)`, not the `0` of exact arithmetic. -/
def machineEps : ℝ := 1 / 2 ^ 52

/-- Sum of column `j` of a row-major matrix stored as a list of rows
(`np.sum(A, axis=0)` at one column). -/
def colSum (rows : List (List ℝ)) (j : ℕ) : ℝ :=
  (rows.map fun r => r.getD j 0).sum

/-- Entry `(k, j)` of a row-major matrix stored as a list of rows. -/
def entryAt (rows : List (List ℝ)) (k j : ℕ) : ℝ :=
  (rows.getD k []).getD j 0

/-- Python's `min(items, key=f)` / `np.nanargmin` scan: fold keeping the
current best, replacing it only on a strictly smaller key, so the first
occurrence of the minimum wins. -/
def minBy {α : Type} (f : α → ℝ) : α → List α → α
  | b, [] => b
  | b, a :: l => minBy f (if f a < f b then a else b) l

/-- Rank-one outer product `v vᵀ` (`np.dot(v[:,None], v[None,:])` shape). -/
def outerSelf {D : ℕ} (v : Fin D → ℝ) : Matrix (Fin D) (Fin D) ℝ :=
  Matrix.of fun i i' => v i * v i'

/-- The covariance-structure names accepted by the two constructors
(`"free"`, `"full"`, `"diag"`, `"tied"`, `"tied_diag"` after
`.strip().lower()`), embedded as an enumeration. -/
inductive CovName
  | free | full | diag | tied | tied_diag
deriving DecidableEq

/-- mixture_ka.py `_parameters_per_component` (lines 311-340): number of free
parameters of one component's mean and covariance. -/
def parameters_per_component (D : ℕ) : CovName → ℕ
  | .free => D + D * (D + 1) / 2
  | .diag => 2 * D
  | .tied => D
  | .tied_diag => D
  | .full => D + D * (D + 1) / 2

/-- The Kullback-Leibler "distance" of mixture_ka.py lines 252-308 (the body
of mixture_search.py lines 843-905 is identical after its diagonal-vector
arguments are expanded with `Matrix.diagonal`).  The SVD dance
`V.T @ inv(diag(S)) @ U.T` is the matrix inverse.  NOTE: line 304 computes
`trace(Ca_inv @ cov_b)`, i.e. `Tr(Σₐ⁻¹ Σ_b)`, although the docstring formula
requires `Tr(Σ_b⁻¹ Σₐ)`. -/
def kullback_leibler_for_multivariate_normals {D : ℕ}
    (mu_a : Fin D → ℝ) (cov_a : Matrix (Fin D) (Fin D) ℝ)
    (mu_b : Fin D → ℝ) (cov_b : Matrix (Fin D) (Fin D) ℝ) : ℝ :=
  let Ca_inv := cov_a⁻¹
  let Cb_inv := cov_b⁻¹
  let offset := mu_b - mu_a
  (1 / 2) * ((Ca_inv * cov_b).trace
    + Matrix.dotProduct offset (Cb_inv.mulVec offset)
    - (D : ℝ)
    + Real.log (cov_b.det / cov_a.det))

namespace mixture_ka

/-- Mixture parameters: the `(mu, cov, weight)` triple threaded through
mixture_ka.py. `weight.length` is `weight.size`, the component count. -/
structure KAState (D : ℕ) where
  mu : List (Fin D → ℝ)
  cov : List (Matrix (Fin D) (Fin D) ℝ)
  weight : List ℝ

/-- What `_expectation_maximization` returns (minus the redundant copies):
state, responsibility matrix, the `warnflag` metadata entry, and the change
in message length. -/
structure EMResult (D : ℕ) where
  state : KAState D
  resp : List (List ℝ)
  warn : Bool
  dl : ℝ

/-- Entry `(k, j)` of the unnormalized responsibility array of
`responsibility_matrix` (mixture_ka.py lines 229-239):
`(2π)^(-D/2) · w_k · det(C_k)^(-1/2) · exp(-½ (y_j-μ_k)ᵀ C_k⁻¹ (y_j-μ_k))`. -/
def numeratorEntry {D : ℕ} (y mu : List (Fin D → ℝ))
    (cov : List (Matrix (Fin D) (Fin D) ℝ)) (weight : List ℝ) (k j : ℕ) : ℝ :=
  let mu_k := mu.getD k 0
  let cov_k := cov.getD k 1
  let o := y.getD j 0 - mu_k
  (2 * Real.pi) ^ (-(D : ℝ) / 2) * weight.getD k 0 * cov_k.det ^ (-(1 : ℝ) / 2)
    * Real.exp (-(1 / 2) * Matrix.dotProduct o (cov_k⁻¹.mulVec o))

/-- The normalization constants of `responsibility_matrix` (line 242):
per-observation column sums of the numerator, clipped into
`[machineEps, 10e8]`. -/
def normalizationConstant {D : ℕ} (y mu : List (Fin D → ℝ))
    (cov : List (Matrix (Fin D) (Fin D) ℝ)) (weight : List ℝ) (j : ℕ) : ℝ :=
  clip machineEps ((10 : ℝ) ^ 9)
    (∑ k ∈ Finset.range mu.length, numeratorEntry y mu cov weight k j)

/-- Entry `(k, j)` of `np.clip(numerator/denominator, eps, 1)` (line 243). -/
def respPre {D : ℕ} (y mu : List (Fin D → ℝ))
    (cov : List (Matrix (Fin D) (Fin D) ℝ)) (weight : List ℝ) (k j : ℕ) : ℝ :=
  clip machineEps 1
    (numeratorEntry y mu cov weight k j / normalizationConstant y mu cov weight j)

/-- Column sums of the clipped responsibilities
(`np.sum(responsibility, axis=0)`, line 244). -/
def respPreColSum {D : ℕ} (y mu : List (Fin D → ℝ))
    (cov : List (Matrix (Fin D) (Fin D) ℝ)) (weight : List ℝ) (j : ℕ) : ℝ :=
  ∑ k ∈ Finset.range mu.length, respPre y mu cov weight k j

/-- mixture_ka.py `responsibility_matrix` (lines 177-249): a `K × N`
row-major matrix, `K = mu.shape[0]`, `N = len(y)`; each clipped column is
renormalized to sum to one.  (`assert np.all(np.isfinite(...))` always holds
over ℝ.) -/
def responsibility_matrix {D : ℕ} (y mu : List (Fin D → ℝ))
    (cov : List (Matrix (Fin D) (Fin D) ℝ)) (weight : List ℝ) : List (List ℝ) :=
  (List.range mu.length).map fun k =>
    (List.range y.length).map fun j =>
      respPre y mu cov weight k j / respPreColSum y mu cov weight j

/-- mixture_ka.py `_expectation` (lines 363-411): responsibility matrix, the
log-likelihood `Σ_j log(normalization_constant_j)`, and the `delta_length`
expression of lines 401-403.  (`assert np.isfinite(log_likelihood)` always
holds over ℝ.) -/
def expectationStep {D : ℕ} (covt : CovName) (y : List (Fin D → ℝ))
    (st : KAState D) : List (List ℝ) × ℝ × ℝ :=
  let R := responsibility_matrix y st.mu st.cov st.weight
  let ll := ∑ j ∈ Finset.range y.length,
    Real.log (normalizationConstant y st.mu st.cov st.weight j)
  let Ncp : ℝ := (parameters_per_component D covt : ℝ)
  let K : ℝ := (st.weight.length : ℝ)
  let dl := -ll + (Ncp / 2 * (st.weight.map Real.log).sum)
    + (Ncp / 2 + 1 / 2) * K * Real.log (y.length : ℝ)
  (R, ll, dl)

/-- The weight update of `_maximization` (mixture_ka.py lines 451-452,
identical in mixture_search.py lines 1339-1340):
`new_weight_k = (effective_membership_k + 0.5) / (N + M/2)` where the
effective memberships are the responsibility row sums. -/
def maximizationWeights (R : List (List ℝ)) (N M : ℕ) : List ℝ :=
  R.map fun row => (row.sum + 1 / 2) / ((N : ℝ) + (M : ℝ) / 2)

/-- mixture_ka.py `_maximization` (lines 414-467).  `parentR` is the
`parent_responsibility` array (the default scalar `1` is passed as a list of
ones); `w_responsibility = parent_responsibility * responsibility` scales
the rows used for the means and covariances, while the weights use the
unscaled responsibilities. -/
def maximizationStep {D : ℕ} (y : List (Fin D → ℝ)) (st : KAState D)
    (R : List (List ℝ)) (parentR : List ℝ) : KAState D :=
  let M := st.weight.length
  let N := y.length
  let wR : List (List ℝ) := R.map fun row => List.zipWith (fun p r => p * r) parentR row
  let wMem : ℕ → ℝ := fun m => (wR.getD m []).sum
  let newMu : ℕ → (Fin D → ℝ) := fun m =>
    (wMem m)⁻¹ • (List.zipWith (fun r yj => r • yj) (wR.getD m []) y).sum
  let newCov : ℕ → Matrix (Fin D) (Fin D) ℝ := fun m =>
    (wMem m - 1)⁻¹ •
      (List.zipWith (fun r yj => r • outerSelf (yj - newMu m)) (wR.getD m []) y).sum
  ⟨(List.range M).map newMu, (List.range M).map newCov, maximizationWeights R N M⟩

/-- The `while True` loop of `_expectation_maximization` (mixture_ka.py
lines 530-550): maximization step, expectation step, then stop when the
relative log-likelihood change is at most `threshold` or `iterations`
reaches `maxIter` (the `warnflag`).  `fuel` bounds the recursion; callers
pass `fuel = maxIter` so the fuel-exhaustion branch is unreachable for
`maxIter ≥ 1`. -/
def emLoop {D : ℕ} (covt : CovName) (threshold : ℝ) (maxIter : ℕ)
    (y : List (Fin D → ℝ)) (parentR : List ℝ) :
    ℕ → ℕ → KAState D → List (List ℝ) → ℝ → EMResult D
  | 0, _, st, R, _ => ⟨st, R, true, 0⟩
  | fuel + 1, iterations, st, R, prev_ll =>
    let st' := maximizationStep y st R parentR
    let e := expectationStep covt y st'
    let iterations' := iterations + 1
    if |(e.2.1 - prev_ll) / prev_ll| ≤ threshold ∨ maxIter ≤ iterations' then
      ⟨st', e.1, decide (maxIter ≤ iterations'), e.2.2⟩
    else
      emLoop covt threshold maxIter y parentR fuel iterations' st' e.1 e.2.1

/-- mixture_ka.py `_expectation_maximization` (lines 470-557).  All call
sites in the perturbation search pass an explicit responsibility matrix, so
the `responsibility=None` branch is not modelled; the initial expectation
step still supplies the baseline log-likelihood. -/
def expectation_maximization {D : ℕ} (covt : CovName) (threshold : ℝ)
    (maxIter : ℕ) (y : List (Fin D → ℝ)) (st : KAState D) (R : List (List ℝ))
    (parentR : List ℝ) : EMResult D :=
  let e0 := expectationStep covt y st
  emLoop covt threshold maxIter y parentR maxIter 1 st R e0.2.1

/-- The parent-responsibility array used when the caller does not pass one
(`parent_responsibility=1` broadcasts over the `N` observations). -/
def onesParent {D : ℕ} (y : List (Fin D → ℝ)) : List ℝ :=
  List.replicate y.length 1

/-- The child means of `split_component` (mixture_ka.py lines 606-607):
`mu[index] + (±V[0]) * diag(cov[index])**0.5` where `V[0]` is the top
right-singular vector of `cov[index]`, supplied as the parameter `svdV0`. -/
def splitChildMu {D : ℕ}
    (svdV0 : Matrix (Fin D) (Fin D) ℝ → (Fin D → ℝ))
    (mu_idx : Fin D → ℝ) (cov_idx : Matrix (Fin D) (Fin D) ℝ) (s : ℝ) :
    Fin D → ℝ :=
  fun i => mu_idx i + s * svdV0 cov_idx i * Real.sqrt (cov_idx i i)

/-- The child-responsibility seeding of mixture_ka.py `split_component`
(lines 611-617): each of the 2×N entries is the summed ABSOLUTE DISTANCE
of an observation to the child mean, and each column is then divided by its
sum — so each observation's responsibility is proportional to its L1
distance to the child (the comment above these lines claims allocation to
the closest mean). -/
def splitChildResponsibility {D : ℕ} (y : List (Fin D → ℝ))
    (c0 c1 : Fin D → ℝ) : List (List ℝ) :=
  let d : (Fin D → ℝ) → ℕ → ℝ := fun c j => ∑ i, |y.getD j 0 i - c i|
  [(List.range y.length).map fun j => d c0 j / (d c0 j + d c1 j),
   (List.range y.length).map fun j => d c1 j / (d c0 j + d c1 j)]

/-- mixture_ka.py `split_component` (lines 560-675): split component
`index`, optimize the two children under the parent responsibility, then
(for `M > 1`) splice them into the mixture — child A replaces `index`,
child B is appended — and rerun EM on the `M + 1` components; for `M = 1`
the optimized child pair is returned directly. -/
def split_component {D : ℕ}
    (svdV0 : Matrix (Fin D) (Fin D) ℝ → (Fin D → ℝ))
    (covt : CovName) (threshold : ℝ) (maxIter : ℕ) (y : List (Fin D → ℝ))
    (st : KAState D) (R : List (List ℝ)) (index : ℕ) : EMResult D :=
  let M := st.weight.length
  let cov_idx := st.cov.getD index 1
  let c0 := splitChildMu svdV0 (st.mu.getD index 0) cov_idx 1
  let c1 := splitChildMu svdV0 (st.mu.getD index 0) cov_idx (-1)
  let childR := splitChildResponsibility y c0 c1
  let childMem : ℕ → ℝ := fun k => (childR.getD k []).sum
  let childCov : ℕ → Matrix (Fin D) (Fin D) ℝ := fun k =>
    let c := if k = 0 then c0 else c1
    (childMem k - 1)⁻¹ •
      (List.zipWith (fun r yj => r • outerSelf (yj - c)) (childR.getD k []) y).sum
  let childWeight : List ℝ :=
    [childMem 0 / (childMem 0 + childMem 1), childMem 1 / (childMem 0 + childMem 1)]
  let parent_weight := st.weight.getD index 0
  let parentR : List ℝ := (R.getD index []).map fun r => clip machineEps 1 r
  let child := expectation_maximization covt threshold maxIter y
    ⟨[c0, c1], [childCov 0, childCov 1], childWeight⟩ childR parentR
  if 1 < M then
    let cw0 := child.state.weight.getD 0 0
    let cw1 := child.state.weight.getD 1 0
    let weight' := (st.weight.set index (parent_weight * cw0)) ++ [parent_weight * cw1]
    let resp' := (R.set index
        (List.zipWith (fun p r => p * r) parentR (child.resp.getD 0 []))) ++
      [List.zipWith (fun p r => p * r) parentR (child.resp.getD 1 [])]
    let mu' := (st.mu.set index (child.state.mu.getD 0 0)) ++ [child.state.mu.getD 1 0]
    let cov' := (st.cov.set index (child.state.cov.getD 0 1)) ++ [child.state.cov.getD 1 1]
    expectation_maximization covt threshold maxIter y ⟨mu', cov', weight'⟩ resp' (onesParent y)
  else
    child

/-- The weight renormalization of mixture_ka.py `delete_component`
(line 723): drop entry `index` and divide the remaining weights by
`1 - weight[index]`. -/
def deleteWeights (weight : List ℝ) (index : ℕ) : List ℝ :=
  (weight.eraseIdx index).map fun w => w / (1 - weight.getD index 0)

/-- mixture_ka.py `delete_component` (lines 678-733): drop component
`index`, renormalize weights and responsibilities (the latter clipped to
`[0, 1]`), and rerun EM on the remaining `K - 1` components. -/
def delete_component {D : ℕ} (covt : CovName) (threshold : ℝ) (maxIter : ℕ)
    (y : List (Fin D → ℝ)) (st : KAState D) (R : List (List ℝ)) (index : ℕ) :
    EMResult D :=
  let parentRow := R.getD index []
  let resp' := (R.eraseIdx index).map fun row =>
    List.zipWith (fun r pr => clip 0 1 (r / (1 - pr))) row parentRow
  expectation_maximization covt threshold maxIter y
    ⟨st.mu.eraseIdx index, st.cov.eraseIdx index, deleteWeights st.weight index⟩
    resp' (onesParent y)

/-- The Kullback-Leibler value computed by `merge_component` from component
`index` to component `m` (mixture_ka.py lines 781-782). -/
def klFromIndex {D : ℕ} (st : KAState D) (index m : ℕ) : ℝ :=
  kullback_leibler_for_multivariate_normals
    (st.mu.getD index 0) (st.cov.getD index 1) (st.mu.getD m 0) (st.cov.getD m 1)

/-- The candidate list scanned by `np.nanargmin(D_kl)`: the entry at
`index` itself is `np.inf` (never the minimum when `K > 1`), so the scan
ranges over the pairs `(m, D_kl[m])` for `m ≠ index` in increasing order
of `m`. -/
def mergePairs {D : ℕ} (st : KAState D) (index : ℕ) : List (ℕ × ℝ) :=
  ((List.range st.weight.length).filter fun m => m != index).map
    fun m => (m, klFromIndex st index m)

/-- `b_index = np.nanargmin(D_kl)` (line 784): the first pair attaining
the minimal divergence.  (The `[]` case cannot occur for `K > 1`.) -/
def mergePartner {D : ℕ} (st : KAState D) (index : ℕ) : ℕ :=
  match mergePairs st index with
  | [] => index
  | p :: ps => (minBy (fun q => q.2) p ps).1

/-- The combined responsibility row of the merged pair (line 788). -/
def mergedResp {D : ℕ} (st : KAState D) (R : List (List ℝ)) (index : ℕ) : List ℝ :=
  List.zipWith (· + ·) (R.getD index []) (R.getD (mergePartner st index) [])

/-- The combined mean of the merged pair (line 791):
`Σ_j r_j · y_j / Σ_j r_j`. -/
def mergedMu {D : ℕ} (y : List (Fin D → ℝ)) (st : KAState D)
    (R : List (List ℝ)) (index : ℕ) : Fin D → ℝ :=
  ((mergedResp st R index).sum)⁻¹ •
    (List.zipWith (fun r yj => r • yj) (mergedResp st R index) y).sum

/-- The combined covariance of the merged pair (lines 793-795):
responsibility-weighted scatter about the combined mean divided by
`(effective membership − 1)`. -/
def mergedCov {D : ℕ} (y : List (Fin D → ℝ)) (st : KAState D)
    (R : List (List ℝ)) (index : ℕ) : Matrix (Fin D) (Fin D) ℝ :=
  ((mergedResp st R index).sum - 1)⁻¹ •
    (List.zipWith (fun r yj => r • outerSelf (yj - mergedMu y st R index))
      (mergedResp st R index) y).sum

/-- The pre-EM state built by `merge_component` (lines 787-809): delete the
higher of the two indices, overwrite the lower with the merged component. -/
def mergePre {D : ℕ} (y : List (Fin D → ℝ)) (st : KAState D)
    (R : List (List ℝ)) (index : ℕ) : KAState D × List (List ℝ) :=
  let b := mergePartner st index
  let delIdx := max index b
  let keepIdx := min index b
  (⟨(st.mu.eraseIdx delIdx).set keepIdx (mergedMu y st R index),
    (st.cov.eraseIdx delIdx).set keepIdx (mergedCov y st R index),
    (st.weight.eraseIdx delIdx).set keepIdx
      (st.weight.getD index 0 + st.weight.getD b 0)⟩,
   (R.eraseIdx delIdx).set keepIdx (mergedResp st R index))

/-- mixture_ka.py `merge_component` (lines 736-814): merge component
`index` with its Kullback-Leibler-nearest partner and rerun EM on the
resulting `K - 1` components. -/
def merge_component {D : ℕ} (covt : CovName) (threshold : ℝ) (maxIter : ℕ)
    (y : List (Fin D → ℝ)) (st : KAState D) (R : List (List ℝ)) (index : ℕ) :
    EMResult D :=
  let p := mergePre y st R index
  expectation_maximization covt threshold maxIter y p.1 p.2 (onesParent y)

/-- The three perturbation families of the Kasarapu-Allison search. -/
inductive PerturbOp
  | split | delete | merge
deriving DecidableEq

/-- One candidate of a search round: the operator family, the perturbed
component index, and the EM-refined result. -/
structure KACand (D : ℕ) where
  op : PerturbOp
  idx : ℕ
  res : EMResult D

/-- The `K` split candidates of one round (`for m in range(M)`,
mixture_ka.py lines 128-134). -/
def splitCandidates {D : ℕ}
    (svdV0 : Matrix (Fin D) (Fin D) ℝ → (Fin D → ℝ))
    (covt : CovName) (threshold : ℝ) (maxIter : ℕ) (y : List (Fin D → ℝ))
    (st : KAState D) (R : List (List ℝ)) : List (KACand D) :=
  (List.range st.weight.length).map fun m =>
    ⟨.split, m, split_component svdV0 covt threshold maxIter y st R m⟩

/-- The `K` delete candidates of one round (lines 138-144). -/
def deleteCandidates {D : ℕ} (covt : CovName) (threshold : ℝ) (maxIter : ℕ)
    (y : List (Fin D → ℝ)) (st : KAState D) (R : List (List ℝ)) :
    List (KACand D) :=
  (List.range st.weight.length).map fun m =>
    ⟨.delete, m, delete_component covt threshold maxIter y st R m⟩

/-- The `K` merge candidates of one round (lines 147-153). -/
def mergeCandidates {D : ℕ} (covt : CovName) (threshold : ℝ) (maxIter : ℕ)
    (y : List (Fin D → ℝ)) (st : KAState D) (R : List (List ℝ)) :
    List (KACand D) :=
  (List.range st.weight.length).map fun m =>
    ⟨.merge, m, merge_component covt threshold maxIter y st R m⟩

/-- All candidates evaluated in one round: every split, plus — only when
`M > 1` (line 136) — every delete and every merge.  Keeping, per family,
the first candidate that strictly improves the family best and then taking
`min` over the family dict (lines 125-157) selects exactly the first
minimum of this concatenation, since the dict iterates in insertion order
split, delete, merge. -/
def allCandidates {D : ℕ}
    (svdV0 : Matrix (Fin D) (Fin D) ℝ → (Fin D → ℝ))
    (covt : CovName) (threshold : ℝ) (maxIter : ℕ) (y : List (Fin D → ℝ))
    (st : KAState D) (R : List (List ℝ)) : List (KACand D) :=
  splitCandidates svdV0 covt threshold maxIter y st R ++
    (if 1 < st.weight.length then
      deleteCandidates covt threshold maxIter y st R ++
        mergeCandidates covt threshold maxIter y st R
    else [])

/-- The globally best candidate of the round (lines 155-158), the first one
attaining the minimal message length.  The `[]` fallback is unreachable for
`K ≥ 1`. -/
def bestCandidate {D : ℕ}
    (svdV0 : Matrix (Fin D) (Fin D) ℝ → (Fin D → ℝ))
    (covt : CovName) (threshold : ℝ) (maxIter : ℕ) (y : List (Fin D → ℝ))
    (st : KAState D) (R : List (List ℝ)) : KACand D :=
  match allCandidates svdV0 covt threshold maxIter y st R with
  | [] => ⟨.split, 0, ⟨⟨[], [], []⟩, [], false, 0⟩⟩
  | c :: cs => minBy (fun c => c.res.dl) c cs

/-- One round of `_fit_kasarapu_allison`'s `while True` loop (mixture_ka.py
lines 122-169): `some` of the accepted candidate when its message length
strictly beats the incumbent's `mindl` (line 160), `none` when the round
rejects every perturbation and the loop breaks. -/
def searchRound {D : ℕ}
    (svdV0 : Matrix (Fin D) (Fin D) ℝ → (Fin D → ℝ))
    (covt : CovName) (threshold : ℝ) (maxIter : ℕ) (y : List (Fin D → ℝ))
    (st : KAState D) (R : List (List ℝ)) (mindl : ℝ) : Option (KACand D) :=
  if (allCandidates svdV0 covt threshold maxIter y st R).isEmpty then none
  else
    let best := bestCandidate svdV0 covt threshold maxIter y st R
    if best.res.dl < mindl then some best else none

/-- The full search loop, `fuel` rounds at most: on acceptance the incumbent
`(mu, cov, weight, R)` and `mindl` are replaced by the best candidate's and
the loop continues; otherwise it stops with the incumbent unchanged. -/
def searchLoop {D : ℕ}
    (svdV0 : Matrix (Fin D) (Fin D) ℝ → (Fin D → ℝ))
    (covt : CovName) (threshold : ℝ) (maxIter : ℕ) (y : List (Fin D → ℝ)) :
    ℕ → KAState D → List (List ℝ) → ℝ → KAState D × List (List ℝ) × ℝ
  | 0, st, R, mindl => (st, R, mindl)
  | fuel + 1, st, R, mindl =>
    match searchRound svdV0 covt threshold maxIter y st R mindl with
    | none => (st, R, mindl)
    | some c => searchLoop svdV0 covt threshold maxIter y fuel c.res.state c.res.resp c.res.dl

end mixture_ka

namespace mixture_search

/-- The weighted log-probability matrix entry of mixture_search.py
`responsibility_matrix` (lines 826-828): `log(w_k)` plus the log Gaussian
density of `_estimate_log_gaussian_prob` (lines 1282-1299, full-covariance
path), expressed through the precision-Cholesky factor `P_k = pcf(cov_k)`
computed by `_compute_precision_cholesky`; the log-determinant term is
`Σ_i log (P_k)_{ii}` (`_compute_log_det_cholesky`, full path).  scipy's
Cholesky factorization has no closed form, so `pcf` is a parameter. -/
def weightedLogProb {D : ℕ}
    (pcf : Matrix (Fin D) (Fin D) ℝ → Matrix (Fin D) (Fin D) ℝ)
    (y mu : List (Fin D → ℝ)) (cov : List (Matrix (Fin D) (Fin D) ℝ))
    (weight : List ℝ) (k j : ℕ) : ℝ :=
  let P := pcf (cov.getD k 1)
  let logdet := ∑ i, Real.log (P i i)
  let q := ∑ i, (Matrix.vecMul (y.getD j 0 - mu.getD k 0) P i) ^ 2
  Real.log (weight.getD k 0) +
    (-(1 / 2) * ((D : ℝ) * Real.log (2 * Real.pi) + q) + logdet)

/-- `scipy.misc.logsumexp(weighted_log_prob, axis=1)` at observation `j`
(line 830). -/
def logSumExpAt {D : ℕ}
    (pcf : Matrix (Fin D) (Fin D) ℝ → Matrix (Fin D) (Fin D) ℝ)
    (y mu : List (Fin D → ℝ)) (cov : List (Matrix (Fin D) (Fin D) ℝ))
    (weight : List ℝ) (j : ℕ) : ℝ :=
  Real.log (∑ k ∈ Finset.range mu.length,
    Real.exp (weightedLogProb pcf y mu cov weight k j))

/-- mixture_search.py `responsibility_matrix` (lines 780-840): the `K × N`
matrix `exp(weighted_log_prob - logsumexp)` transposed to components-first
row-major form. -/
def responsibility_matrix {D : ℕ}
    (pcf : Matrix (Fin D) (Fin D) ℝ → Matrix (Fin D) (Fin D) ℝ)
    (y mu : List (Fin D → ℝ)) (cov : List (Matrix (Fin D) (Fin D) ℝ))
    (weight : List ℝ) : List (List ℝ) :=
  (List.range mu.length).map fun k =>
    (List.range y.length).map fun j =>
      Real.exp (weightedLogProb pcf y mu cov weight k j -
        logSumExpAt pcf y mu cov weight j)

/-- The scatter divisor of `_estimate_covariance_matrix_full` (line 1197)
and `_estimate_covariance_matrix_diag` (line 1237):
`nm - 1 if nm > 1 else nm` for effective membership `nm`. -/
def covDivisor (nm : ℝ) : ℝ := if 1 < nm then nm - 1 else nm

/-- One output matrix of `_estimate_covariance_matrix_full`
(lines 1194-1200): responsibility-weighted scatter about the mean divided
by `covDivisor` of the membership, plus `covariance_regularization * I`. -/
def covFullEntry {D : ℕ} (y : List (Fin D → ℝ)) (responsibility : List (List ℝ))
    (mean : List (Fin D → ℝ)) (reg : ℝ) (m : ℕ) : Matrix (Fin D) (Fin D) ℝ :=
  let mu := mean.getD m 0
  let rm := responsibility.getD m []
  (covDivisor rm.sum)⁻¹ •
      (List.zipWith (fun r yj => r • outerSelf (yj - mu)) rm y).sum
    + reg • (1 : Matrix (Fin D) (Fin D) ℝ)

/-- mixture_search.py `_estimate_covariance_matrix_full` (lines 1184-1202). -/
def estimate_covariance_matrix_full {D : ℕ} (y : List (Fin D → ℝ))
    (responsibility : List (List ℝ)) (mean : List (Fin D → ℝ)) (reg : ℝ) :
    List (Matrix (Fin D) (Fin D) ℝ) :=
  (List.range responsibility.length).map (covFullEntry y responsibility mean reg)

/-- One output row of `_estimate_covariance_matrix_diag` (lines 1234-1239):
`np.dot(rm, diff**2) / covDivisor(nm) + covariance_regularization`
componentwise.  (The vectorized `denominator` of lines 1227-1228 is
overwritten by the loop and is dead code.) -/
def covDiagEntry {D : ℕ} (y : List (Fin D → ℝ)) (responsibility : List (List ℝ))
    (mean : List (Fin D → ℝ)) (reg : ℝ) (m : ℕ) : Fin D → ℝ :=
  let mu := mean.getD m 0
  let rm := responsibility.getD m []
  fun i =>
    (List.zipWith (fun r yj => r * (yj i - mu i) ^ 2) rm y).sum / covDivisor rm.sum
      + reg

/-- mixture_search.py `_estimate_covariance_matrix_diag` (lines 1221-1241). -/
def estimate_covariance_matrix_diag {D : ℕ} (y : List (Fin D → ℝ))
    (responsibility : List (List ℝ)) (mean : List (Fin D → ℝ)) (reg : ℝ) :
    List (Fin D → ℝ) :=
  (List.range responsibility.length).map (covDiagEntry y responsibility mean reg)

/-- The covariance argument of `_message_length`: full covariances are a
list of matrices, diagonal ones a list of variance vectors. -/
inductive CovData (D : ℕ)
  | full (cs : List (Matrix (Fin D) (Fin D) ℝ))
  | diag (vs : List (Fin D → ℝ))

/-- Lines 1065-1069 of `_message_length`: diagonal covariances are expanded
with `np.eye(D)` (i.e. `Matrix.diagonal`) before taking determinants. -/
def CovData.asMatrices {D : ℕ} : CovData D → List (Matrix (Fin D) (Fin D) ℝ)
  | .full cs => cs
  | .diag vs => vs.map Matrix.diagonal

/-- The parameter count `_parameters_per_mixture` (lines 908-931) for the
two supported structures. -/
def CovData.paramCount {D : ℕ} : CovData D → ℕ
  | .full _ => D + D * (D + 1) / 2
  | .diag _ => 2 * D

/-- mixture_search.py `log_kappa` (lines 1007-1010), applied to the real
free-parameter count. -/
def log_kappa (x : ℝ) : ℝ :=
  -1 + 2 * (-(1 / 2) * x * Real.log (2 * Real.pi) + (1 / 2) * Real.log (x * Real.pi)) / x

/-- The total message length `I` computed by `_message_length`
(mixture_search.py lines 1014-1120) on the `D ≠ 1` path, before the
asserts: `I = part1 + part2` with `part1 = I_m + I_w + Σ I_t + lattice` and
`part2 = I_l + Q/(2 log 2)`.  (The `part2` of line 1084 is overwritten at
line 1118 and the `log_prior` block is commented out in the source, so
`log_prior = 0`.) -/
def messageLengthTotal {D : ℕ} (y : List (Fin D → ℝ)) (covd : CovData D)
    (weight : List ℝ) (responsibility : List (List ℝ)) (nll : ℝ) : ℝ :=
  let N : ℝ := (y.length : ℝ)
  let Dr : ℝ := (D : ℝ)
  let M : ℝ := (weight.length : ℝ)
  let I_m : ℝ := M
  let I_w : ℝ := ((M - 1) / 2 * Real.log N - (1 / 2) * (weight.map Real.log).sum
    - Real.log (Real.Gamma M)) / Real.log 2
  let I_t : List ℝ := List.zipWith
    (fun row C =>
      let logdet := Real.log (Matrix.det C)
      (0 + (1 / 2) * ((1 / 2) * Dr * (Dr + 3) * Real.log row.sum - logdet
        - (Dr * Real.log 2 + (Dr + 1) * logdet))) / Real.log 2)
    responsibility covd.asMatrices
  let Q : ℝ := (1 / 2) * Dr * (Dr + 3) * M + (M - 1)
  let lattice : ℝ := (1 / 2) * Q * log_kappa Q / Real.log 2
  let I_l : ℝ := (nll - Dr * N * Real.log (1 / 1000)) / Real.log 2
  (I_m + I_w + I_t.sum + lattice) + (I_l + (1 / 2) * Q / Real.log 2)

/-- The `I_w` subterm of `_message_length` (lines 1026-1034), needed because
the source asserts `I_w >= -0.5` separately. -/
def messageLengthIw (N : ℕ) (weight : List ℝ) : ℝ :=
  ((((weight.length : ℝ) - 1) / 2) * Real.log (N : ℝ)
    - (1 / 2) * (weight.map Real.log).sum
    - Real.log (Real.Gamma (weight.length : ℝ))) / Real.log 2

/-- The ways `_message_length` can raise instead of returning. -/
inductive MLError
  | unsupportedDim
  | assertFailed
  | dofailRequested

/-- mixture_search.py `_message_length` (lines 1014-1138) as a fallible
call: the `D == 1` branch raises (line 1062), `assert I_w >= -0.5`
(line 1122) and `assert I > 0` (line 1124) raise when violated, the
`dofail` debug flag raises (lines 1126-1132), and otherwise the total `I`
is returned. -/
def message_length {D : ℕ} (y : List (Fin D → ℝ)) (covd : CovData D)
    (weight : List ℝ) (responsibility : List (List ℝ)) (nll : ℝ)
    (dofail : Bool) : Except MLError ℝ :=
  if D = 1 then .error .unsupportedDim
  else if ¬ (-(1 / 2) ≤ messageLengthIw y.length weight) then .error .assertFailed
  else if ¬ (0 < messageLengthTotal y covd weight responsibility nll) then
    .error .assertFailed
  else if dofail then .error .dofailRequested
  else .ok (messageLengthTotal y covd weight responsibility nll)

/-- `Except` results that are errors (a raised Python exception). -/
def raises {ε α : Type} : Except ε α → Prop
  | .error _ => True
  | .ok _ => False

/-- The squared distance rows of mixture_search.py `split_component`
(lines 1529-1532). -/
def splitSqDistance {D : ℕ} (y : List (Fin D → ℝ)) (c : Fin D → ℝ) (j : ℕ) : ℝ :=
  ∑ i, (y.getD j 0 i - c i) ^ 2

/-- The child-responsibility seeding of mixture_search.py `split_component`
(lines 1534-1535): `child_responsibility[np.argmin(distance, axis=0),
np.arange(N)] = 1.0` — every observation is hard-assigned responsibility 1
for the child with the smaller squared distance (`np.argmin` picks child 0
on ties) and 0 for the other. -/
def splitChildResponsibility {D : ℕ} (y : List (Fin D → ℝ))
    (c0 c1 : Fin D → ℝ) : List (List ℝ) :=
  [(List.range y.length).map fun j =>
      if splitSqDistance y c0 j ≤ splitSqDistance y c1 j then 1 else 0,
   (List.range y.length).map fun j =>
      if splitSqDistance y c0 j ≤ splitSqDistance y c1 j then 0 else 1]

/-- The weight renormalization of mixture_search.py `delete_component`
(lines 1649-1651): like mixture_ka's, but clipped into `[0, 1]`. -/
def deleteWeights (weight : List ℝ) (index : ℕ) : List ℝ :=
  (weight.eraseIdx index).map fun w =>
    clip 0 1 (w / (1 - weight.getD index 0))

/-- Configuration errors raised by `GaussianMixture.__init__`
(mixture_search.py lines 277-301), all plain `ValueError`s. -/
inductive MSConfigError
  | invalidCovarianceType
  | negativeRegularization
  | nonpositiveThreshold
  | nonpositiveMaxIterations

/-- The state stored by a successfully constructed
mixture_search `GaussianMixture`. -/
structure MSConfig where
  covariance_type : CovName
  covariance_regularization : ℚ
  threshold : ℚ
  max_em_iterations : ℤ

/-- mixture_search.py `GaussianMixture.__init__` (lines 277-301):
`available = ("full", "diag")` — any other covariance type, including
`tied` and `tied_diag`, raises `ValueError` before any state is assigned;
then the numeric arguments are validated.  Numeric arguments are embedded
as exact rationals. -/
def GaussianMixtureInit (covariance_type : CovName)
    (covariance_regularization threshold : ℚ) (max_em_iterations : ℤ) :
    Except MSConfigError MSConfig :=
  if covariance_type ∈ [CovName.full, CovName.diag] then
    if 0 > covariance_regularization then .error .negativeRegularization
    else if 0 ≥ threshold then .error .nonpositiveThreshold
    else if 1 > max_em_iterations then .error .nonpositiveMaxIterations
    else .ok ⟨covariance_type, covariance_regularization, threshold, max_em_iterations⟩
  else .error .invalidCovarianceType

end mixture_search

namespace mixture_ka

/-- Errors raised by mixture_ka.py `GaussianMixture.__init__`
(lines 48-65). -/
inductive KAInitError
  | valueError
  | notImplementedError

/-- mixture_ka.py `GaussianMixture.__init__` (lines 48-65):
`available = ("free", "diag", "tied", "tied_diag")`; a type outside it
raises `ValueError`; a type outside `("free", "tied")` then raises
`NotImplementedError` — both before `self._y` / `self._covariance_type`
are assigned.  So `tied` is accepted while `diag` and `tied_diag` are
rejected at construction. -/
def GaussianMixtureInit (covariance_type : CovName) :
    Except KAInitError CovName :=
  if covariance_type ∈ [CovName.free, CovName.diag, CovName.tied, CovName.tied_diag] then
    if covariance_type ∈ [CovName.free, CovName.tied] then .ok covariance_type
    else .error .notImplementedError
  else .error .valueError

end mixture_ka

/-! ### Helper lemmas -/

theorem getD_range_map {α : Type} (f : ℕ → α) (d : α) {n k : ℕ} (h : k < n) :
    ((List.range n).map f).getD k d = f k := by
  have hk : k < ((List.range n).map f).length := by simpa using h
  rw [List.getD_eq_getElem _ _ hk]
  simp

theorem sum_range_map (f : ℕ → ℝ) (n : ℕ) :
    ((List.range n).map f).sum = ∑ i ∈ Finset.range n, f i := by
  induction n with
  | zero => simp
  | succ n ih =>
    rw [List.range_succ, List.map_append, List.sum_append, Finset.sum_range_succ, ih]
    simp

theorem le_clip (lo hi x : ℝ) : lo ≤ clip lo hi x := le_max_left _ _

theorem clip_le (lo hi x : ℝ) (h : lo ≤ hi) : clip lo hi x ≤ hi :=
  max_le h (min_le_right _ _)

theorem clip_eq_self (lo hi x : ℝ) (h1 : lo ≤ x) (h2 : x ≤ hi) :
    clip lo hi x = x := by
  unfold clip
  rw [min_eq_left h2, max_eq_right h1]

theorem sum_eraseIdx_eq (l : List ℝ) :
    ∀ i : ℕ, i < l.length → (l.eraseIdx i).sum = l.sum - l.getD i 0 := by
  induction l with
  | nil => intro i h; simp at h
  | cons a t ih =>
    intro i h
    cases i with
    | zero => simp [List.eraseIdx]
    | succ i =>
      have hi : i < t.length := by simpa using h
      simp only [List.eraseIdx, List.sum_cons, List.getD_cons_succ, ih i hi]
      ring

theorem mem_of_mem_eraseIdx {α : Type} {l : List α} {i : ℕ} {x : α}
    (h : x ∈ l.eraseIdx i) : x ∈ l := by
  induction l generalizing i with
  | nil => simp [List.eraseIdx] at h
  | cons a t ih =>
    cases i with
    | zero =>
      simp only [List.eraseIdx] at h
      exact List.mem_cons_of_mem _ h
    | succ i =>
      simp only [List.eraseIdx, List.mem_cons] at h ⊢
      exact h.imp id ih

theorem minBy_mem {α : Type} (f : α → ℝ) (b : α) (l : List α) :
    minBy f b l ∈ b :: l := by
  induction l generalizing b with
  | nil => simp [minBy]
  | cons a t ih =>
    have h := ih (if f a < f b then a else b)
    rw [minBy]
    rcases List.mem_cons.1 h with h' | h'
    · rw [h']
      by_cases hc : f a < f b <;> simp [hc]
    · simp [List.mem_cons.2 (Or.inr (List.mem_cons.2 (Or.inr h')))]

theorem minBy_le {α : Type} (f : α → ℝ) (b : α) (l : List α) :
    ∀ a ∈ b :: l, f (minBy f b l) ≤ f a := by
  induction l generalizing b with
  | nil =>
    intro a ha
    rcases List.mem_cons.1 ha with rfl | h
    · exact le_refl _
    · simp at h
  | cons c t ih =>
    intro a ha
    have hb' : f (if f c < f b then c else b) ≤ f b := by
      by_cases hc : f c < f b <;> simp [hc, le_of_lt, le_refl]
    have hc' : f (if f c < f b then c else b) ≤ f c := by
      by_cases hc : f c < f b
      · simp [hc]
      · simpa [hc] using le_of_not_lt hc
    have hrec := ih (if f c < f b then c else b)
    have hself : f (minBy f b (c :: t)) ≤ f (if f c < f b then c else b) :=
      hrec _ (List.mem_cons_self _ _)
    rcases List.mem_cons.1 ha with rfl | ha'
    · exact le_trans (by rw [minBy]; exact hself) hb'
    rcases List.mem_cons.1 ha' with rfl | ha''
    · exact le_trans (by rw [minBy]; exact hself) hc'
    · rw [minBy]
      exact hrec _ (List.mem_cons_of_mem _ ha'')

theorem minBy_eq_or_lt {α : Type} (f : α → ℝ) (b : α) (l : List α) :
    minBy f b l = b ∨ f (minBy f b l) < f b := by
  induction l generalizing b with
  | nil => left; rfl
  | cons c t ih =>
    rw [minBy]
    by_cases hc : f c < f b
    · rw [if_pos hc]
      rcases ih c with h | h
      · right; rw [h]; exact hc
      · right; exact lt_trans h hc
    · rw [if_neg hc]
      exact ih b

theorem minBy_first {α : Type} (g : α → ℕ) (f : α → ℝ) (b : α) (l : List α)
    (hinc : (b :: l).Pairwise fun p q => g p < g q) :
    ∀ p ∈ b :: l, g p < g (minBy f b l) → f (minBy f b l) < f p := by
  induction l generalizing b with
  | nil =>
    intro p hp hlt
    rcases List.mem_cons.1 hp with rfl | h
    · exact absurd hlt (by simp [minBy])
    · simp at h
  | cons c t ih =>
    have hbc : g b < g c := (List.pairwise_cons.1 hinc).1 c (List.mem_cons_self _ _)
    have hinc' : ((if f c < f b then c else b) :: t).Pairwise fun p q => g p < g q := by
      have h1 := (List.pairwise_cons.1 hinc).2
      have h2 := (List.pairwise_cons.1 h1).2
      have hbt := (List.pairwise_cons.1 hinc).1
      have hct := (List.pairwise_cons.1 h1).1
      refine List.pairwise_cons.2 ⟨?_, h2⟩
      intro q hq
      by_cases hc : f c < f b
      · simpa [hc] using hct q hq
      · simpa [hc] using hbt q (List.mem_cons_of_mem _ hq)
    intro p hp hlt
    rw [minBy] at hlt ⊢
    have hrec := ih (if f c < f b then c else b) hinc'
    rcases List.mem_cons.1 hp with hpb | hp'
    · -- p = b
      rw [hpb] at hlt ⊢
      by_cases hc : f c < f b
      · have h1 : f (minBy f (if f c < f b then c else b) t) ≤ f c := by
          have := minBy_le f (if f c < f b then c else b) t _ (List.mem_cons_self _ _)
          simpa [hc] using this
        exact lt_of_le_of_lt h1 hc
      · -- best' = b, and g b < g result contradicts: either result = b or f result < f b
        rcases minBy_eq_or_lt f (if f c < f b then c else b) t with h | h
        · rw [h] at hlt
          rw [if_neg hc] at hlt
          exact absurd hlt (lt_irrefl _)
        · simpa [hc] using h
    rcases List.mem_cons.1 hp' with hpc | hp''
    · -- p = c
      rw [hpc] at hlt ⊢
      by_cases hc : f c < f b
      · rcases minBy_eq_or_lt f (if f c < f b then c else b) t with h | h
        · rw [h] at hlt
          rw [if_pos hc] at hlt
          exact absurd hlt (lt_irrefl _)
        · simpa [hc] using h
      · -- best' = b; g c < g result; result = b impossible since g b < g c
        rcases minBy_eq_or_lt f (if f c < f b then c else b) t with h | h
        · rw [h, if_neg hc] at hlt
          exact absurd (lt_trans hbc hlt) (lt_irrefl _)
        · have h2 : f b ≤ f c := le_of_not_lt hc
          calc f (minBy f (if f c < f b then c else b) t) < f (if f c < f b then c else b) := h
          _ = f b := by rw [if_neg hc]
          _ ≤ f c := h2
    · exact hrec p (List.mem_cons_of_mem _ hp'') hlt

theorem list_sum_map_div (l : List ℝ) (c : ℝ) :
    (l.map fun x => x / c).sum = l.sum / c := by
  induction l with
  | nil => simp
  | cons a t ih => simp [ih, add_div]

theorem list_sum_map_add {α : Type} (l : List α) (f g : α → ℝ) :
    (l.map fun x => f x + g x).sum = (l.map f).sum + (l.map g).sum := by
  induction l with
  | nil => simp
  | cons a t ih => simp [ih]; ring

theorem list_sum_map_const {α : Type} (l : List α) (c : ℝ) :
    (l.map fun _ => c).sum = (l.length : ℝ) * c := by
  induction l with
  | nil => simp
  | cons a t ih =>
    simp only [List.map_cons, List.sum_cons, ih, List.length_cons]
    push_cast
    ring

theorem list_sum_getD (r : List ℝ) :
    r.sum = ∑ j ∈ Finset.range r.length, r.getD j 0 := by
  induction r with
  | nil => simp
  | cons a t ih =>
    rw [List.sum_cons, ih, List.length_cons, Finset.sum_range_succ']
    simp
    ring

/-! ### Claim theorems -/

/-- C10: in the covariance estimators of mixture_search, if a component's
effective membership is strictly positive then the scatter divisor is
strictly positive; it is `membership - 1` when membership exceeds `1` and
the membership itself otherwise, and both the full and the diagonal
estimator divide by exactly this divisor. -/
theorem covariance_scatter_divisor_positive {D : ℕ} (y : List (Fin D → ℝ))
    (R : List (List ℝ)) (mean : List (Fin D → ℝ)) (reg : ℝ) (k : ℕ)
    (hk : k < R.length) (hpos : 0 < (R.getD k []).sum) :
    0 < mixture_search.covDivisor (R.getD k []).sum ∧
    (1 < (R.getD k []).sum →
      mixture_search.covDivisor (R.getD k []).sum = (R.getD k []).sum - 1) ∧
    ((R.getD k []).sum ≤ 1 →
      mixture_search.covDivisor (R.getD k []).sum = (R.getD k []).sum) ∧
    (mixture_search.estimate_covariance_matrix_full y R mean reg).getD k 0 =
      mixture_search.covFullEntry y R mean reg k ∧
    (mixture_search.estimate_covariance_matrix_diag y R mean reg).getD k 0 =
      mixture_search.covDiagEntry y R mean reg k := by
  refine ⟨?_, ?_, ?_, ?_, ?_⟩
  · unfold mixture_search.covDivisor
    by_cases h : 1 < (R.getD k []).sum
    · rw [if_pos h]; linarith
    · rw [if_neg h]; exact hpos
  · intro h
    unfold mixture_search.covDivisor
    rw [if_pos h]
  · intro h
    unfold mixture_search.covDivisor
    rw [if_neg (not_lt.2 h)]
  · exact getD_range_map _ _ hk
  · exact getD_range_map _ _ hk

theorem covariance_scatter_divisor_positive_witness :
    (0 : ℕ) < ([[(2 : ℝ)]] : List (List ℝ)).length ∧
    0 < (([[(2 : ℝ)]] : List (List ℝ)).getD 0 []).sum ∧
    0 < mixture_search.covDivisor ((([[(2 : ℝ)]] : List (List ℝ)).getD 0 []).sum) := by
  have h1 : (0 : ℕ) < ([[(2 : ℝ)]] : List (List ℝ)).length := by simp
  have h2 : 0 < (([[(2 : ℝ)]] : List (List ℝ)).getD 0 []).sum := by norm_num
  exact ⟨h1, h2,
    (covariance_scatter_divisor_positive (D := 1) [] [[(2 : ℝ)]] [] 0 0 h1 h2).1⟩

/-- C7: for a mixture state with positive weights summing to one and a
removed index of weight strictly below one, the renormalized weights of
both files' `delete_component` (remaining weights divided by
`1 - removed weight`, clipped to `[0,1]` in mixture_search) sum to one
within `1e-8` (in fact exactly). -/
theorem delete_component_weights_sum_to_one (weight : List ℝ) (index : ℕ)
    (hpos : ∀ w ∈ weight, 0 < w) (hsum : weight.sum = 1)
    (hidx : index < weight.length) (hlt : weight.getD index 0 < 1) :
    |(mixture_ka.deleteWeights weight index).sum - 1| ≤ 1 / 10 ^ 8 ∧
    |(mixture_search.deleteWeights weight index).sum - 1| ≤ 1 / 10 ^ 8 := by
  set w := weight.getD index 0 with hw
  have hw1 : (0 : ℝ) < 1 - w := by linarith
  have herase : (weight.eraseIdx index).sum = 1 - w := by
    rw [sum_eraseIdx_eq weight index hidx, hsum]
  have hka : (mixture_ka.deleteWeights weight index).sum = 1 := by
    unfold mixture_ka.deleteWeights
    rw [← hw, list_sum_map_div, herase, div_self (ne_of_gt hw1)]
  have hclip : ∀ x ∈ weight.eraseIdx index, clip 0 1 (x / (1 - w)) = x / (1 - w) := by
    intro x hx
    have hx0 : 0 < x := hpos x (mem_of_mem_eraseIdx hx)
    have hxle : x ≤ 1 - w := by
      rw [← herase]
      refine List.single_le_sum ?_ x hx
      intro z hz
      exact le_of_lt (hpos z (mem_of_mem_eraseIdx hz))
    refine clip_eq_self 0 1 _ ?_ ?_
    · exact div_nonneg (le_of_lt hx0) (le_of_lt hw1)
    · exact (div_le_one hw1).2 hxle
  have hms : (mixture_search.deleteWeights weight index).sum = 1 := by
    unfold mixture_search.deleteWeights
    rw [← hw]
    rw [List.map_congr_left hclip]
    rw [list_sum_map_div, herase, div_self (ne_of_gt hw1)]
  rw [hka, hms]
  norm_num

theorem delete_component_weights_sum_to_one_witness :
    (∀ w ∈ [(1 : ℝ) / 2, 1 / 2], 0 < w) ∧ ([(1 : ℝ) / 2, 1 / 2]).sum = 1 ∧
    (0 : ℕ) < ([(1 : ℝ) / 2, 1 / 2]).length ∧
    ([(1 : ℝ) / 2, 1 / 2]).getD 0 0 < 1 ∧
    |(mixture_ka.deleteWeights [(1 : ℝ) / 2, 1 / 2] 0).sum - 1| ≤ 1 / 10 ^ 8 := by
  have h1 : ∀ w ∈ [(1 : ℝ) / 2, 1 / 2], 0 < w := by
    intro w hw
    rcases List.mem_cons.1 hw with rfl | hw'
    · norm_num
    · rcases List.mem_cons.1 hw' with rfl | hw''
      · norm_num
      · simp at hw''
  have h2 : ([(1 : ℝ) / 2, 1 / 2]).sum = 1 := by norm_num
  have h3 : (0 : ℕ) < ([(1 : ℝ) / 2, 1 / 2]).length := by simp
  have h4 : ([(1 : ℝ) / 2, 1 / 2]).getD 0 0 < 1 := by norm_num
  exact ⟨h1, h2, h3, h4,
    (delete_component_weights_sum_to_one [(1 : ℝ) / 2, 1 / 2] 0 h1 h2 h3 h4).1⟩

/-- C9 counterexample: constructing the mixture_search `GaussianMixture`
with the tied covariance structure (and otherwise valid configuration) does
NOT succeed — it raises an invalid-covariance-type `ValueError` at
construction, contradicting the claim that construction succeeds and an
unsupported-feature error is only raised at first use. -/
theorem tied_construction_raises_at_init :
    mixture_search.GaussianMixtureInit CovName.tied 0 (1 / 100000) 10000 =
      Except.error mixture_search.MSConfigError.invalidCovarianceType := rfl

/-- C9 (amended): mixture_search rejects `tied` and `tied_diag` immediately
at construction with an invalid-covariance-type `ValueError` regardless of
the numeric configuration, so no state is ever set for them; mixture_ka
accepts `tied` at construction and rejects `tied_diag` at construction with
`NotImplementedError`. -/
theorem tied_covariance_construction_behavior :
    (∀ (reg thr : ℚ) (mi : ℤ),
      mixture_search.GaussianMixtureInit CovName.tied reg thr mi =
        Except.error mixture_search.MSConfigError.invalidCovarianceType ∧
      mixture_search.GaussianMixtureInit CovName.tied_diag reg thr mi =
        Except.error mixture_search.MSConfigError.invalidCovarianceType) ∧
    mixture_ka.GaussianMixtureInit CovName.tied = Except.ok CovName.tied ∧
    mixture_ka.GaussianMixtureInit CovName.tied_diag =
      Except.error mixture_ka.KAInitError.notImplementedError :=
  ⟨fun _ _ _ => ⟨rfl, rfl⟩, rfl, rfl⟩

/-- C4: the `kullback_leibler_for_multivariate_normals` of both files is
NEGATIVE at mean `0`, `cov_a = I`, `cov_b = ½·I` in one dimension, so the
claimed non-negativity fails: line 304 of mixture_ka.py (equally line 901
of mixture_search.py) computes `trace(Ca_inv @ cov_b)`, i.e.
`Tr(Σₐ⁻¹ Σ_b)`, where the docstring's Kullback-Leibler formula requires
`Tr(Σ_b⁻¹ Σₐ)`. -/
theorem kullback_leibler_negative_at_shrunk_covariance :
    kullback_leibler_for_multivariate_normals
      (fun _ : Fin 1 => (0 : ℝ)) 1 (fun _ : Fin 1 => (0 : ℝ)) (((1 : ℝ) / 2) • 1) < 0 := by
  have hoff : (fun _ : Fin 1 => (0 : ℝ)) - (fun _ : Fin 1 => (0 : ℝ)) = 0 := sub_self _
  have hlog : Real.log (1 / 2) < 0 := Real.log_neg (by norm_num) (by norm_num)
  simp only [kullback_leibler_for_multivariate_normals, hoff, inv_one, one_mul,
    Matrix.zero_dotProduct, Matrix.trace_smul, Matrix.trace_one, Matrix.det_smul,
    Matrix.det_one, Fintype.card_fin, smul_eq_mul, pow_one, mul_one, div_one]
  norm_num
  linarith

/-- C6: the child-responsibility seeding of mixture_ka `split_component`
(lines 613-617) is NOT a hard assignment: for the observation `y = [0]`
with child means `1` and `3`, child 0 is strictly nearer yet receives
responsibility `1/4` (the seeding is proportional to L1 distance, so the
FARTHER child gets more), while mixture_search `split_component`
(lines 1529-1535) hard-assigns responsibilities `1` and `0` to the nearer
and farther child, as the claim and mixture_ka's own comment describe. -/
theorem split_seed_not_hard_assignment :
    (∑ i, |([fun _ : Fin 1 => (0 : ℝ)].getD 0 0) i - (fun _ : Fin 1 => (1 : ℝ)) i|) <
      (∑ i, |([fun _ : Fin 1 => (0 : ℝ)].getD 0 0) i - (fun _ : Fin 1 => (3 : ℝ)) i|) ∧
    entryAt (mixture_ka.splitChildResponsibility [fun _ : Fin 1 => (0 : ℝ)]
      (fun _ => 1) (fun _ => 3)) 0 0 = 1 / 4 ∧
    entryAt (mixture_ka.splitChildResponsibility [fun _ : Fin 1 => (0 : ℝ)]
      (fun _ => 1) (fun _ => 3)) 1 0 = 3 / 4 ∧
    entryAt (mixture_search.splitChildResponsibility [fun _ : Fin 1 => (0 : ℝ)]
      (fun _ => 1) (fun _ => 3)) 0 0 = 1 ∧
    entryAt (mixture_search.splitChildResponsibility [fun _ : Fin 1 => (0 : ℝ)]
      (fun _ => 1) (fun _ => 3)) 1 0 = 0 := by
  have hrange : List.range 1 = [0] := rfl
  refine ⟨?_, ?_, ?_, ?_, ?_⟩
  · norm_num [Fin.sum_univ_one]
  · norm_num [entryAt, mixture_ka.splitChildResponsibility, hrange,
      Fin.sum_univ_one]
  · norm_num [entryAt, mixture_ka.splitChildResponsibility, hrange,
      Fin.sum_univ_one]
  · norm_num [entryAt, mixture_search.splitChildResponsibility, hrange,
      mixture_search.splitSqDistance, Fin.sum_univ_one]
  · norm_num [entryAt, mixture_search.splitChildResponsibility, hrange,
      mixture_search.splitSqDistance, Fin.sum_univ_one]

theorem sum_rows_eq_sum_cols (R : List (List ℝ)) (N : ℕ)
    (hrow : ∀ row ∈ R, row.length = N) :
    (R.map List.sum).sum = ∑ j ∈ Finset.range N, colSum R j := by
  induction R with
  | nil => simp [colSum]
  | cons r t ih =>
    have hr : r.length = N := hrow r (List.mem_cons_self _ _)
    have ht : ∀ row ∈ t, row.length = N := fun row hm => hrow row (List.mem_cons_of_mem _ hm)
    have hcol : ∀ j, colSum (r :: t) j = r.getD j 0 + colSum t j := by
      intro j
      simp [colSum]
    simp only [List.map_cons, List.sum_cons, ih ht]
    rw [Finset.sum_congr rfl fun j _ => hcol j, Finset.sum_add_distrib]
    rw [list_sum_getD r, hr]

/-- C3: the M-step weight update of both files computes
`(effective membership + 0.5) / (N + K/2)` for each of the `K` components,
and whenever the responsibility matrix has nonnegative entries and each of
its `N` columns sums to one, every returned weight is strictly positive and
the returned weights sum to one. -/
theorem maximization_weight_update (R : List (List ℝ)) (N : ℕ)
    (hne : 1 ≤ R.length)
    (hrow : ∀ row ∈ R, row.length = N)
    (hnn : ∀ row ∈ R, ∀ x ∈ row, (0 : ℝ) ≤ x)
    (hcol : ∀ j < N, colSum R j = 1) :
    (∀ k < R.length, (mixture_ka.maximizationWeights R N R.length).getD k 0
      = ((R.getD k []).sum + 1 / 2) / ((N : ℝ) + (R.length : ℝ) / 2)) ∧
    (∀ w ∈ mixture_ka.maximizationWeights R N R.length, 0 < w) ∧
    (mixture_ka.maximizationWeights R N R.length).sum = 1 := by
  have hden : (0 : ℝ) < (N : ℝ) + (R.length : ℝ) / 2 := by
    have h1 : (1 : ℝ) ≤ (R.length : ℝ) := by exact_mod_cast hne
    have h2 : (0 : ℝ) ≤ (N : ℝ) := Nat.cast_nonneg N
    linarith
  refine ⟨?_, ?_, ?_⟩
  · intro k hk
    unfold mixture_ka.maximizationWeights
    have hkm : k < (R.map fun row => (row.sum + 1 / 2) / ((N : ℝ) + (R.length : ℝ) / 2)).length := by
      simpa using hk
    rw [List.getD_eq_getElem _ _ hkm, List.getElem_map, List.getD_eq_getElem _ _ hk]
  · intro w hw
    unfold mixture_ka.maximizationWeights at hw
    rcases List.mem_map.1 hw with ⟨row, hrm, rfl⟩
    have hrs : (0 : ℝ) ≤ row.sum := List.sum_nonneg (hnn row hrm)
    exact div_pos (by linarith) hden
  · unfold mixture_ka.maximizationWeights
    have hmaps : (R.map fun row => (row.sum + 1 / 2) / ((N : ℝ) + (R.length : ℝ) / 2))
        = ((R.map fun row => row.sum + 1 / 2).map fun x => x / ((N : ℝ) + (R.length : ℝ) / 2)) := by
      rw [List.map_map]
      rfl
    rw [hmaps, list_sum_map_div]
    have hadd : (R.map fun row => row.sum + 1 / 2).sum
        = (R.map List.sum).sum + (R.length : ℝ) * (1 / 2) := by
      have h1 := list_sum_map_add R List.sum (fun _ => (1 : ℝ) / 2)
      have h2 := list_sum_map_const R ((1 : ℝ) / 2)
      rw [← h2, ← h1]
    rw [hadd, sum_rows_eq_sum_cols R N hrow]
    have hcols : ∑ j ∈ Finset.range N, colSum R j = (N : ℝ) := by
      rw [Finset.sum_congr rfl fun j hj => hcol j (Finset.mem_range.1 hj)]
      simp
    rw [hcols]
    have : (N : ℝ) + (R.length : ℝ) * (1 / 2) = (N : ℝ) + (R.length : ℝ) / 2 := by ring
    rw [this, div_self (ne_of_gt hden)]

theorem maximization_weight_update_witness :
    (1 : ℕ) ≤ ([[(1 : ℝ)]] : List (List ℝ)).length ∧
    (∀ row ∈ ([[(1 : ℝ)]] : List (List ℝ)), row.length = 1) ∧
    (∀ row ∈ ([[(1 : ℝ)]] : List (List ℝ)), ∀ x ∈ row, (0 : ℝ) ≤ x) ∧
    (∀ j < 1, colSum ([[(1 : ℝ)]] : List (List ℝ)) j = 1) ∧
    (mixture_ka.maximizationWeights [[(1 : ℝ)]] 1 ([[(1 : ℝ)]] : List (List ℝ)).length).sum = 1 := by
  have h1 : (1 : ℕ) ≤ ([[(1 : ℝ)]] : List (List ℝ)).length := by simp
  have h2 : ∀ row ∈ ([[(1 : ℝ)]] : List (List ℝ)), row.length = 1 := by
    intro row hm
    rcases List.mem_cons.1 hm with rfl | hm'
    · simp
    · simp at hm'
  have h3 : ∀ row ∈ ([[(1 : ℝ)]] : List (List ℝ)), ∀ x ∈ row, (0 : ℝ) ≤ x := by
    intro row hm x hx
    rcases List.mem_cons.1 hm with rfl | hm'
    · rcases List.mem_cons.1 hx with rfl | hx'
      · norm_num
      · simp at hx'
    · simp at hm'
  have h4 : ∀ j < 1, colSum ([[(1 : ℝ)]] : List (List ℝ)) j = 1 := by
    intro j hj
    interval_cases j
    simp [colSum]
  exact ⟨h1, h2, h3, h4,
    (maximization_weight_update [[(1 : ℝ)]] 1 h1 h2 h3 h4).2.2⟩

theorem machineEps_pos : (0 : ℝ) < machineEps := by
  unfold machineEps
  norm_num

/-- C1: for every data matrix and mixture state with positive weights and
positive-definite (positive-determinant) covariances, the responsibility
matrices returned by both files' `responsibility_matrix` have every entry
in `[0, 1]` and every observation column summing to one within `1e-8`
(in fact exactly). -/
theorem responsibility_matrix_column_stochastic {D : ℕ}
    (y mu : List (Fin D → ℝ)) (cov : List (Matrix (Fin D) (Fin D) ℝ))
    (weight : List ℝ)
    (pcf : Matrix (Fin D) (Fin D) ℝ → Matrix (Fin D) (Fin D) ℝ)
    (hK : 1 ≤ mu.length)
    (hw : ∀ w ∈ weight, 0 < w)
    (hdet : ∀ C ∈ cov, 0 < C.det) :
    (∀ k < mu.length, ∀ j < y.length,
      0 ≤ entryAt (mixture_ka.responsibility_matrix y mu cov weight) k j ∧
      entryAt (mixture_ka.responsibility_matrix y mu cov weight) k j ≤ 1) ∧
    (∀ j < y.length,
      |colSum (mixture_ka.responsibility_matrix y mu cov weight) j - 1| ≤ 1 / 10 ^ 8) ∧
    (∀ k < mu.length, ∀ j < y.length,
      0 ≤ entryAt (mixture_search.responsibility_matrix pcf y mu cov weight) k j ∧
      entryAt (mixture_search.responsibility_matrix pcf y mu cov weight) k j ≤ 1) ∧
    (∀ j < y.length,
      |colSum (mixture_search.responsibility_matrix pcf y mu cov weight) j - 1| ≤ 1 / 10 ^ 8) := by
  have hKne : (Finset.range mu.length).Nonempty := by
    refine ⟨0, Finset.mem_range.2 ?_⟩
    omega
  -- mixture_ka facts
  have hpre_pos : ∀ k j, 0 < mixture_ka.respPre y mu cov weight k j := fun k j =>
    lt_of_lt_of_le machineEps_pos (le_clip _ _ _)
  have hS_pos : ∀ j, 0 < mixture_ka.respPreColSum y mu cov weight j := by
    intro j
    unfold mixture_ka.respPreColSum
    exact Finset.sum_pos (fun k _ => hpre_pos k j) hKne
  have hpre_le_S : ∀ k j, k < mu.length →
      mixture_ka.respPre y mu cov weight k j ≤ mixture_ka.respPreColSum y mu cov weight j := by
    intro k j hk
    unfold mixture_ka.respPreColSum
    exact Finset.single_le_sum (f := fun k => mixture_ka.respPre y mu cov weight k j)
      (fun i _ => le_of_lt (hpre_pos i j)) (Finset.mem_range.2 hk)
  have hka_entry : ∀ k < mu.length, ∀ j < y.length,
      entryAt (mixture_ka.responsibility_matrix y mu cov weight) k j =
        mixture_ka.respPre y mu cov weight k j / mixture_ka.respPreColSum y mu cov weight j := by
    intro k hk j hj
    unfold entryAt mixture_ka.responsibility_matrix
    rw [getD_range_map _ _ hk, getD_range_map _ _ hj]
  have hka_col : ∀ j < y.length,
      colSum (mixture_ka.responsibility_matrix y mu cov weight) j = 1 := by
    intro j hj
    unfold colSum mixture_ka.responsibility_matrix
    rw [List.map_map]
    have hfun : ∀ k ∈ List.range mu.length,
        ((fun r => r.getD j 0) ∘ fun k =>
          (List.range y.length).map fun j =>
            mixture_ka.respPre y mu cov weight k j /
              mixture_ka.respPreColSum y mu cov weight j) k
        = mixture_ka.respPre y mu cov weight k j /
            mixture_ka.respPreColSum y mu cov weight j := by
      intro k _
      exact getD_range_map _ _ hj
    rw [List.map_congr_left hfun, sum_range_map, ← Finset.sum_div]
    exact div_self (ne_of_gt (hS_pos j))
  -- mixture_search facts
  have hmsS_pos : ∀ j, (0 : ℝ) < ∑ k ∈ Finset.range mu.length,
      Real.exp (mixture_search.weightedLogProb pcf y mu cov weight k j) :=
    fun j => Finset.sum_pos (fun k _ => Real.exp_pos _) hKne
  have hms_val : ∀ k j,
      Real.exp (mixture_search.weightedLogProb pcf y mu cov weight k j -
        mixture_search.logSumExpAt pcf y mu cov weight j)
      = Real.exp (mixture_search.weightedLogProb pcf y mu cov weight k j) /
          (∑ k ∈ Finset.range mu.length,
            Real.exp (mixture_search.weightedLogProb pcf y mu cov weight k j)) := by
    intro k j
    unfold mixture_search.logSumExpAt
    rw [Real.exp_sub, Real.exp_log (hmsS_pos j)]
  have hms_entry : ∀ k < mu.length, ∀ j < y.length,
      entryAt (mixture_search.responsibility_matrix pcf y mu cov weight) k j =
        Real.exp (mixture_search.weightedLogProb pcf y mu cov weight k j) /
          (∑ k ∈ Finset.range mu.length,
            Real.exp (mixture_search.weightedLogProb pcf y mu cov weight k j)) := by
    intro k hk j hj
    unfold entryAt mixture_search.responsibility_matrix
    rw [getD_range_map _ _ hk, getD_range_map _ _ hj, hms_val]
  have hms_col : ∀ j < y.length,
      colSum (mixture_search.responsibility_matrix pcf y mu cov weight) j = 1 := by
    intro j hj
    unfold colSum mixture_search.responsibility_matrix
    rw [List.map_map]
    have hfun : ∀ k ∈ List.range mu.length,
        ((fun r => r.getD j 0) ∘ fun k =>
          (List.range y.length).map fun j =>
            Real.exp (mixture_search.weightedLogProb pcf y mu cov weight k j -
              mixture_search.logSumExpAt pcf y mu cov weight j)) k
        = Real.exp (mixture_search.weightedLogProb pcf y mu cov weight k j) /
            (∑ k ∈ Finset.range mu.length,
              Real.exp (mixture_search.weightedLogProb pcf y mu cov weight k j)) := by
      intro k _
      rw [Function.comp_apply, getD_range_map _ _ hj, hms_val]
    rw [List.map_congr_left hfun, sum_range_map, ← Finset.sum_div]
    exact div_self (ne_of_gt (hmsS_pos j))
  refine ⟨?_, ?_, ?_, ?_⟩
  · intro k hk j hj
    rw [hka_entry k hk j hj]
    constructor
    · exact div_nonneg (le_of_lt (hpre_pos k j)) (le_of_lt (hS_pos j))
    · exact (div_le_one (hS_pos j)).2 (hpre_le_S k j hk)
  · intro j hj
    rw [hka_col j hj]
    norm_num
  · intro k hk j hj
    rw [hms_entry k hk j hj]
    constructor
    · exact div_nonneg (le_of_lt (Real.exp_pos _)) (le_of_lt (hmsS_pos j))
    · refine (div_le_one (hmsS_pos j)).2 ?_
      exact Finset.single_le_sum
        (f := fun k => Real.exp (mixture_search.weightedLogProb pcf y mu cov weight k j))
        (fun i _ => le_of_lt (Real.exp_pos _)) (Finset.mem_range.2 hk)
  · intro j hj
    rw [hms_col j hj]
    norm_num

theorem responsibility_matrix_column_stochastic_witness :
    (1 : ℕ) ≤ ([fun _ : Fin 1 => (0 : ℝ)] : List (Fin 1 → ℝ)).length ∧
    (∀ w ∈ [(1 : ℝ)], 0 < w) ∧
    (∀ C ∈ [(1 : Matrix (Fin 1) (Fin 1) ℝ)], 0 < C.det) ∧
    (∀ j < ([fun _ : Fin 1 => (0 : ℝ)] : List (Fin 1 → ℝ)).length,
      |colSum (mixture_ka.responsibility_matrix
        [fun _ : Fin 1 => (0 : ℝ)] [fun _ : Fin 1 => (0 : ℝ)]
        [(1 : Matrix (Fin 1) (Fin 1) ℝ)] [(1 : ℝ)]) j - 1| ≤ 1 / 10 ^ 8) := by
  have h1 : (1 : ℕ) ≤ ([fun _ : Fin 1 => (0 : ℝ)] : List (Fin 1 → ℝ)).length := by simp
  have h2 : ∀ w ∈ [(1 : ℝ)], 0 < w := by
    intro w hw
    rcases List.mem_cons.1 hw with rfl | hw'
    · norm_num
    · simp at hw'
  have h3 : ∀ C ∈ [(1 : Matrix (Fin 1) (Fin 1) ℝ)], 0 < C.det := by
    intro C hC
    rcases List.mem_cons.1 hC with rfl | hC'
    · simp
    · simp at hC'
  exact ⟨h1, h2, h3,
    (responsibility_matrix_column_stochastic
      [fun _ : Fin 1 => (0 : ℝ)] [fun _ : Fin 1 => (0 : ℝ)]
      [(1 : Matrix (Fin 1) (Fin 1) ℝ)] [(1 : ℝ)] (fun _ => 1) h1 h2 h3).2.1⟩

/-- C8: every `_message_length` call either raises (the `D == 1` path, a
failed `assert`, or the `dofail` debug flag) or returns the computed total
`I`, and a returned total is strictly positive — a nonpositive total fails
the `assert I > 0` and raises instead of being returned.  (Over the
real-valued embedding every value is finite, so "finite and strictly
positive" reduces to strict positivity.) -/
theorem message_length_positive_or_raises {D : ℕ} (y : List (Fin D → ℝ))
    (covd : mixture_search.CovData D) (weight : List ℝ) (R : List (List ℝ))
    (nll : ℝ) (dofail : Bool) :
    mixture_search.raises (mixture_search.message_length y covd weight R nll dofail) ∨
    (mixture_search.message_length y covd weight R nll dofail =
      Except.ok (mixture_search.messageLengthTotal y covd weight R nll) ∧
      0 < mixture_search.messageLengthTotal y covd weight R nll) := by
  unfold mixture_search.message_length
  by_cases h1 : D = 1
  · rw [if_pos h1]
    exact Or.inl trivial
  rw [if_neg h1]
  by_cases h2 : ¬(-(1 / 2) ≤ mixture_search.messageLengthIw y.length weight)
  · rw [if_pos h2]
    exact Or.inl trivial
  rw [if_neg h2]
  by_cases h3 : ¬(0 < mixture_search.messageLengthTotal y covd weight R nll)
  · rw [if_pos h3]
    exact Or.inl trivial
  rw [if_neg h3]
  by_cases h4 : dofail = true
  · rw [if_pos h4]
    exact Or.inl trivial
  · rw [if_neg h4]
    exact Or.inr ⟨rfl, not_not.1 h3⟩

theorem getD_set_self {α : Type} (l : List α) (i : ℕ) (v d : α)
    (h : i < l.length) : (l.set i v).getD i d = v := by
  rw [List.getD_eq_getElem _ _ (by simpa using h)]
  simp [List.getElem_set]

theorem mergePairs_mem {D : ℕ} (st : mixture_ka.KAState D) (index m : ℕ)
    (hm : m < st.weight.length) (hne : m ≠ index) :
    (m, mixture_ka.klFromIndex st index m) ∈ mixture_ka.mergePairs st index := by
  unfold mixture_ka.mergePairs
  refine List.mem_map.2 ⟨m, ?_, rfl⟩
  refine List.mem_filter.2 ⟨List.mem_range.2 hm, ?_⟩
  simpa using hne

theorem mergePairs_pairwise {D : ℕ} (st : mixture_ka.KAState D) (index : ℕ) :
    (mixture_ka.mergePairs st index).Pairwise fun p q => p.1 < q.1 := by
  unfold mixture_ka.mergePairs
  rw [List.pairwise_map]
  exact (List.pairwise_lt_range _).filter _

/-- C5: `merge_component` computes the program's Kullback-Leibler values
from the indexed component to every other one, picks as partner the first
index attaining the minimum, sums the two weights and responsibility rows,
recomputes one combined mean and covariance from the combined
responsibility, removes the higher-indexed original while placing the
merged component at the lower index (giving `K - 1` components), and is
exactly an EM rerun on that pre-state. -/
theorem merge_component_spec {D : ℕ} (covt : CovName) (threshold : ℝ)
    (maxIter : ℕ) (y : List (Fin D → ℝ)) (st : mixture_ka.KAState D)
    (R : List (List ℝ)) (index K : ℕ)
    (hK : 2 ≤ K) (hmu : st.mu.length = K) (hcov : st.cov.length = K)
    (hw : st.weight.length = K) (hR : R.length = K) (hidx : index < K) :
    (mixture_ka.mergePartner st index < K ∧ mixture_ka.mergePartner st index ≠ index) ∧
    (∀ m < K, m ≠ index →
      mixture_ka.klFromIndex st index (mixture_ka.mergePartner st index) ≤
        mixture_ka.klFromIndex st index m) ∧
    (∀ m < mixture_ka.mergePartner st index, m ≠ index →
      mixture_ka.klFromIndex st index (mixture_ka.mergePartner st index) <
        mixture_ka.klFromIndex st index m) ∧
    ((mixture_ka.mergePre y st R index).1.mu.length = K - 1 ∧
     (mixture_ka.mergePre y st R index).1.cov.length = K - 1 ∧
     (mixture_ka.mergePre y st R index).1.weight.length = K - 1 ∧
     (mixture_ka.mergePre y st R index).2.length = K - 1) ∧
    ((mixture_ka.mergePre y st R index).1.weight.getD
        (min index (mixture_ka.mergePartner st index)) 0 =
      st.weight.getD index 0 + st.weight.getD (mixture_ka.mergePartner st index) 0) ∧
    ((mixture_ka.mergePre y st R index).2.getD
        (min index (mixture_ka.mergePartner st index)) [] =
      mixture_ka.mergedResp st R index) ∧
    ((mixture_ka.mergePre y st R index).1.mu.getD
        (min index (mixture_ka.mergePartner st index)) 0 =
      mixture_ka.mergedMu y st R index) ∧
    ((mixture_ka.mergePre y st R index).1.cov.getD
        (min index (mixture_ka.mergePartner st index)) 0 =
      mixture_ka.mergedCov y st R index) ∧
    mixture_ka.merge_component covt threshold maxIter y st R index =
      mixture_ka.expectation_maximization covt threshold maxIter y
        (mixture_ka.mergePre y st R index).1 (mixture_ka.mergePre y st R index).2
        (mixture_ka.onesParent y) := by
  -- the scanned pair list is nonempty
  have hm0 : (if index = 0 then 1 else 0) < st.weight.length := by
    by_cases h0 : index = 0 <;> simp [h0, hw] <;> omega
  have hm0ne : (if index = 0 then 1 else 0) ≠ index := by
    by_cases h0 : index = 0 <;> simp [h0]
    omega
  have hne : mixture_ka.mergePairs st index ≠ [] :=
    List.ne_nil_of_mem (mergePairs_mem st index _ hm0 hm0ne)
  obtain ⟨p, ps, hpe⟩ := List.exists_cons_of_ne_nil hne
  set q := minBy (fun q : ℕ × ℝ => q.2) p ps with hq
  have hpart : mixture_ka.mergePartner st index = q.1 := by
    unfold mixture_ka.mergePartner
    rw [hpe]
  have hqmem : q ∈ mixture_ka.mergePairs st index := by
    rw [hpe]
    exact minBy_mem _ p ps
  obtain ⟨m', hm'f, hm'q⟩ := List.mem_map.1 (by
    unfold mixture_ka.mergePairs at hqmem
    exact hqmem)
  have hbK : q.1 < st.weight.length := by
    have := List.mem_filter.1 hm'f
    have hmr := List.mem_range.1 this.1
    rw [← hm'q]
    exact hmr
  have hbne : q.1 ≠ index := by
    have := List.mem_filter.1 hm'f
    have : m' ≠ index := by simpa using this.2
    rw [← hm'q]
    exact this
  have hqval : q.2 = mixture_ka.klFromIndex st index q.1 := by
    rw [← hm'q]
  have hmin : ∀ m < K, m ≠ index →
      q.2 ≤ mixture_ka.klFromIndex st index m := by
    intro m hmK hmne
    have hmem : (m, mixture_ka.klFromIndex st index m) ∈ p :: ps := by
      rw [← hpe]
      exact mergePairs_mem st index m (by omega) hmne
    exact minBy_le _ p ps _ hmem
  have hfirst : ∀ m < q.1, m ≠ index →
      q.2 < mixture_ka.klFromIndex st index m := by
    intro m hmb hmne
    have hmem : (m, mixture_ka.klFromIndex st index m) ∈ p :: ps := by
      rw [← hpe]
      refine mergePairs_mem st index m ?_ hmne
      omega
    have hpw : (p :: ps).Pairwise fun r s : ℕ × ℝ => r.1 < s.1 := by
      rw [← hpe]
      exact mergePairs_pairwise st index
    exact minBy_first Prod.fst (fun q : ℕ × ℝ => q.2) p ps hpw _ hmem hmb
  -- index arithmetic for the pre-state
  have hbK' : q.1 < K := by
    rw [hw] at hbK
    exact hbK
  have hkeep : min index q.1 < K - 1 := by
    rcases lt_or_gt_of_ne hbne with h | h
    · have : min index q.1 = q.1 := by omega
      omega
    · have : min index q.1 = index := by omega
      omega
  have hdel : max index q.1 < K := by omega
  have hlenW : (st.weight.eraseIdx (max index q.1)).length = K - 1 := by
    have := List.length_eraseIdx_add_one (l := st.weight) (i := max index q.1)
      (by omega)
    omega
  have hlenMu : (st.mu.eraseIdx (max index q.1)).length = K - 1 := by
    have := List.length_eraseIdx_add_one (l := st.mu) (i := max index q.1)
      (by omega)
    omega
  have hlenCov : (st.cov.eraseIdx (max index q.1)).length = K - 1 := by
    have := List.length_eraseIdx_add_one (l := st.cov) (i := max index q.1)
      (by omega)
    omega
  have hlenR : (R.eraseIdx (max index q.1)).length = K - 1 := by
    have := List.length_eraseIdx_add_one (l := R) (i := max index q.1)
      (by omega)
    omega
  refine ⟨⟨by rw [hpart]; exact hbK', by rw [hpart]; exact hbne⟩,
    ?_, ?_, ⟨?_, ?_, ?_, ?_⟩, ?_, ?_, ?_, ?_, rfl⟩
  · intro m hmK hmne
    rw [hpart, ← hqval]
    exact hmin m hmK hmne
  · intro m hmb hmne
    rw [hpart, ← hqval]
    exact hfirst m (by rwa [hpart] at hmb) hmne
  · unfold mixture_ka.mergePre
    simp only [hpart]
    rw [List.length_set, hlenMu]
  · unfold mixture_ka.mergePre
    simp only [hpart]
    rw [List.length_set, hlenCov]
  · unfold mixture_ka.mergePre
    simp only [hpart]
    rw [List.length_set, hlenW]
  · unfold mixture_ka.mergePre
    simp only [hpart]
    rw [List.length_set, hlenR]
  · unfold mixture_ka.mergePre
    simp only [hpart]
    rw [getD_set_self _ _ _ _ (by rw [hlenW]; exact hkeep)]
  · unfold mixture_ka.mergePre
    simp only [hpart]
    rw [getD_set_self _ _ _ _ (by rw [hlenR]; exact hkeep)]
  · unfold mixture_ka.mergePre
    simp only [hpart]
    rw [getD_set_self _ _ _ _ (by rw [hlenMu]; exact hkeep)]
  · unfold mixture_ka.mergePre
    simp only [hpart]
    rw [getD_set_self _ _ _ _ (by rw [hlenCov]; exact hkeep)]

theorem merge_component_spec_witness :
    (2 : ℕ) ≤ 2 ∧
    ((⟨[fun _ : Fin 1 => (0 : ℝ), fun _ : Fin 1 => (1 : ℝ)],
        [(1 : Matrix (Fin 1) (Fin 1) ℝ), (1 : Matrix (Fin 1) (Fin 1) ℝ)],
        [(1 : ℝ) / 2, 1 / 2]⟩ : mixture_ka.KAState 1).mu.length = 2) ∧
    ((⟨[fun _ : Fin 1 => (0 : ℝ), fun _ : Fin 1 => (1 : ℝ)],
        [(1 : Matrix (Fin 1) (Fin 1) ℝ), (1 : Matrix (Fin 1) (Fin 1) ℝ)],
        [(1 : ℝ) / 2, 1 / 2]⟩ : mixture_ka.KAState 1).cov.length = 2) ∧
    ((⟨[fun _ : Fin 1 => (0 : ℝ), fun _ : Fin 1 => (1 : ℝ)],
        [(1 : Matrix (Fin 1) (Fin 1) ℝ), (1 : Matrix (Fin 1) (Fin 1) ℝ)],
        [(1 : ℝ) / 2, 1 / 2]⟩ : mixture_ka.KAState 1).weight.length = 2) ∧
    (([[(1 : ℝ)], [(0 : ℝ)]] : List (List ℝ)).length = 2) ∧
    (0 : ℕ) < 2 ∧
    (mixture_ka.mergePartner
      (⟨[fun _ : Fin 1 => (0 : ℝ), fun _ : Fin 1 => (1 : ℝ)],
        [(1 : Matrix (Fin 1) (Fin 1) ℝ), (1 : Matrix (Fin 1) (Fin 1) ℝ)],
        [(1 : ℝ) / 2, 1 / 2]⟩ : mixture_ka.KAState 1) 0 < 2 ∧
     mixture_ka.mergePartner
      (⟨[fun _ : Fin 1 => (0 : ℝ), fun _ : Fin 1 => (1 : ℝ)],
        [(1 : Matrix (Fin 1) (Fin 1) ℝ), (1 : Matrix (Fin 1) (Fin 1) ℝ)],
        [(1 : ℝ) / 2, 1 / 2]⟩ : mixture_ka.KAState 1) 0 ≠ 0) :=
  ⟨le_refl 2, rfl, rfl, rfl, rfl, by omega,
    (merge_component_spec CovName.free (1 / 100000) 10 [fun _ : Fin 1 => (0 : ℝ)]
      (⟨[fun _ : Fin 1 => (0 : ℝ), fun _ : Fin 1 => (1 : ℝ)],
        [(1 : Matrix (Fin 1) (Fin 1) ℝ), (1 : Matrix (Fin 1) (Fin 1) ℝ)],
        [(1 : ℝ) / 2, 1 / 2]⟩ : mixture_ka.KAState 1)
      [[(1 : ℝ)], [(0 : ℝ)]] 0 2 (le_refl 2) rfl rfl rfl rfl (by omega)).1⟩

theorem responsibility_matrix_length {D : ℕ} (y mu : List (Fin D → ℝ))
    (cov : List (Matrix (Fin D) (Fin D) ℝ)) (weight : List ℝ) :
    (mixture_ka.responsibility_matrix y mu cov weight).length = mu.length := by
  unfold mixture_ka.responsibility_matrix
  simp

theorem maximizationStep_lengths {D : ℕ} (y : List (Fin D → ℝ))
    (st : mixture_ka.KAState D) (R : List (List ℝ)) (parentR : List ℝ) :
    (mixture_ka.maximizationStep y st R parentR).mu.length = st.weight.length ∧
    (mixture_ka.maximizationStep y st R parentR).cov.length = st.weight.length ∧
    (mixture_ka.maximizationStep y st R parentR).weight.length = R.length := by
  unfold mixture_ka.maximizationStep mixture_ka.maximizationWeights
  simp

theorem expectationStep_resp_length {D : ℕ} (covt : CovName)
    (y : List (Fin D → ℝ)) (st : mixture_ka.KAState D) :
    (mixture_ka.expectationStep covt y st).1.length = st.mu.length := by
  unfold mixture_ka.expectationStep
  exact responsibility_matrix_length y st.mu st.cov st.weight

theorem emLoop_lengths {D : ℕ} (covt : CovName) (threshold : ℝ)
    (maxIter : ℕ) (y : List (Fin D → ℝ)) (parentR : List ℝ) (K : ℕ) :
    ∀ (fuel iterations : ℕ) (st : mixture_ka.KAState D) (R : List (List ℝ))
      (prev : ℝ), st.mu.length = K → st.cov.length = K →
      st.weight.length = K → R.length = K →
      (mixture_ka.emLoop covt threshold maxIter y parentR fuel iterations st R prev).state.mu.length = K ∧
      (mixture_ka.emLoop covt threshold maxIter y parentR fuel iterations st R prev).state.cov.length = K ∧
      (mixture_ka.emLoop covt threshold maxIter y parentR fuel iterations st R prev).state.weight.length = K ∧
      (mixture_ka.emLoop covt threshold maxIter y parentR fuel iterations st R prev).resp.length = K := by
  intro fuel
  induction fuel with
  | zero =>
    intro iterations st R prev h1 h2 h3 h4
    exact ⟨h1, h2, h3, h4⟩
  | succ fuel ih =>
    intro iterations st R prev h1 h2 h3 h4
    have hms := maximizationStep_lengths y st R parentR
    have hm1 : (mixture_ka.maximizationStep y st R parentR).mu.length = K := by
      rw [hms.1, h3]
    have hm2 : (mixture_ka.maximizationStep y st R parentR).cov.length = K := by
      rw [hms.2.1, h3]
    have hm3 : (mixture_ka.maximizationStep y st R parentR).weight.length = K := by
      rw [hms.2.2, h4]
    have hresp : (mixture_ka.expectationStep covt y
        (mixture_ka.maximizationStep y st R parentR)).1.length = K := by
      rw [expectationStep_resp_length, hm1]
    simp only [mixture_ka.emLoop]
    split
    · exact ⟨hm1, hm2, hm3, hresp⟩
    · exact ih _ _ _ _ hm1 hm2 hm3 hresp

theorem expectation_maximization_lengths {D : ℕ} (covt : CovName)
    (threshold : ℝ) (maxIter : ℕ) (y : List (Fin D → ℝ))
    (st : mixture_ka.KAState D) (R : List (List ℝ)) (parentR : List ℝ) (K : ℕ)
    (h1 : st.mu.length = K) (h2 : st.cov.length = K)
    (h3 : st.weight.length = K) (h4 : R.length = K) :
    (mixture_ka.expectation_maximization covt threshold maxIter y st R parentR).state.mu.length = K ∧
    (mixture_ka.expectation_maximization covt threshold maxIter y st R parentR).state.cov.length = K ∧
    (mixture_ka.expectation_maximization covt threshold maxIter y st R parentR).state.weight.length = K ∧
    (mixture_ka.expectation_maximization covt threshold maxIter y st R parentR).resp.length = K := by
  unfold mixture_ka.expectation_maximization
  exact emLoop_lengths covt threshold maxIter y parentR K _ _ _ _ _ h1 h2 h3 h4

theorem split_component_weight_length {D : ℕ}
    (svdV0 : Matrix (Fin D) (Fin D) ℝ → (Fin D → ℝ)) (covt : CovName)
    (threshold : ℝ) (maxIter : ℕ) (y : List (Fin D → ℝ))
    (st : mixture_ka.KAState D) (R : List (List ℝ)) (index K : ℕ)
    (hmu : st.mu.length = K) (hcov : st.cov.length = K)
    (hw : st.weight.length = K) (hR : R.length = K) (hK : 1 ≤ K) :
    (mixture_ka.split_component svdV0 covt threshold maxIter y st R index).state.weight.length = K + 1 := by
  unfold mixture_ka.split_component
  simp only
  split
  · -- M > 1 branch: spliced (K+1)-component mixture refined by EM
    refine (expectation_maximization_lengths covt threshold maxIter y _ _ _ (K + 1)
      ?_ ?_ ?_ ?_).2.2.1
    · simp [hmu]
    · simp [hcov]
    · simp [hw]
    · simp [hR]
  · -- M = 1 branch: the optimized two-component child mixture, and K = 1
    rename_i hM
    have hK1 : K = 1 := by
      rw [hw] at hM
      omega
    have h2 : (1 : ℕ) + 1 = K + 1 := by omega
    rw [← h2]
    refine (expectation_maximization_lengths covt threshold maxIter y _ _ _ 2
      ?_ ?_ ?_ ?_).2.2.1
    · simp
    · simp
    · simp
    · simp [mixture_ka.splitChildResponsibility]

theorem delete_component_weight_length {D : ℕ} (covt : CovName)
    (threshold : ℝ) (maxIter : ℕ) (y : List (Fin D → ℝ))
    (st : mixture_ka.KAState D) (R : List (List ℝ)) (index K : ℕ)
    (hmu : st.mu.length = K) (hcov : st.cov.length = K)
    (hw : st.weight.length = K) (hR : R.length = K) (hidx : index < K) :
    (mixture_ka.delete_component covt threshold maxIter y st R index).state.weight.length = K - 1 := by
  unfold mixture_ka.delete_component
  refine (expectation_maximization_lengths covt threshold maxIter y _ _ _ (K - 1)
    ?_ ?_ ?_ ?_).2.2.1
  · show (st.mu.eraseIdx index).length = K - 1
    have := List.length_eraseIdx_add_one (l := st.mu) (i := index) (by omega)
    omega
  · show (st.cov.eraseIdx index).length = K - 1
    have := List.length_eraseIdx_add_one (l := st.cov) (i := index) (by omega)
    omega
  · show (mixture_ka.deleteWeights st.weight index).length = K - 1
    unfold mixture_ka.deleteWeights
    rw [List.length_map]
    have := List.length_eraseIdx_add_one (l := st.weight) (i := index) (by omega)
    omega
  · rw [List.length_map]
    have := List.length_eraseIdx_add_one (l := R) (i := index) (by omega)
    omega

theorem mergePartner_lt {D : ℕ} (st : mixture_ka.KAState D) (index : ℕ)
    (hK : 2 ≤ st.weight.length) :
    mixture_ka.mergePartner st index < st.weight.length := by
  have hm0 : (if index = 0 then 1 else 0) < st.weight.length := by
    by_cases h0 : index = 0 <;> simp [h0] <;> omega
  have hm0ne : (if index = 0 then 1 else 0) ≠ index := by
    by_cases h0 : index = 0 <;> simp [h0]
    omega
  have hne := List.ne_nil_of_mem (mergePairs_mem st index _ hm0 hm0ne)
  obtain ⟨p, ps, hpe⟩ := List.exists_cons_of_ne_nil hne
  have hpart : mixture_ka.mergePartner st index =
      (minBy (fun q : ℕ × ℝ => q.2) p ps).1 := by
    unfold mixture_ka.mergePartner
    rw [hpe]
  have hqmem : minBy (fun q : ℕ × ℝ => q.2) p ps ∈ mixture_ka.mergePairs st index := by
    rw [hpe]
    exact minBy_mem _ p ps
  unfold mixture_ka.mergePairs at hqmem
  obtain ⟨m', hm'f, hm'q⟩ := List.mem_map.1 hqmem
  have := List.mem_range.1 (List.mem_filter.1 hm'f).1
  rw [hpart, ← hm'q]
  exact this

theorem merge_component_weight_length {D : ℕ} (covt : CovName)
    (threshold : ℝ) (maxIter : ℕ) (y : List (Fin D → ℝ))
    (st : mixture_ka.KAState D) (R : List (List ℝ)) (index K : ℕ)
    (hmu : st.mu.length = K) (hcov : st.cov.length = K)
    (hw : st.weight.length = K) (hR : R.length = K) (hK : 2 ≤ K)
    (hidx : index < K) :
    (mixture_ka.merge_component covt threshold maxIter y st R index).state.weight.length = K - 1 := by
  have hb : mixture_ka.mergePartner st index < K := by
    have := mergePartner_lt st index (by omega)
    omega
  have hdel : max index (mixture_ka.mergePartner st index) < K := by omega
  unfold mixture_ka.merge_component mixture_ka.mergePre
  simp only
  refine (expectation_maximization_lengths covt threshold maxIter y _ _ _ (K - 1)
    ?_ ?_ ?_ ?_).2.2.1
  · rw [List.length_set]
    have := List.length_eraseIdx_add_one (l := st.mu)
      (i := max index (mixture_ka.mergePartner st index)) (by omega)
    omega
  · rw [List.length_set]
    have := List.length_eraseIdx_add_one (l := st.cov)
      (i := max index (mixture_ka.mergePartner st index)) (by omega)
    omega
  · rw [List.length_set]
    have := List.length_eraseIdx_add_one (l := st.weight)
      (i := max index (mixture_ka.mergePartner st index)) (by omega)
    omega
  · rw [List.length_set]
    have := List.length_eraseIdx_add_one (l := R)
      (i := max index (mixture_ka.mergePartner st index)) (by omega)
    omega

/-- C2: in every round of `_fit_kasarapu_allison`'s search loop with `K`
current components, exactly `K` split candidates are evaluated and — only
when `K > 1` — exactly `K` delete and `K` merge candidates (so `3K`
candidates altogether, else just `K`); the chosen candidate has minimal
message length among all evaluated candidates; the round accepts it exactly
when its message length is strictly below the incumbent's `mindl`, with a
split candidate carrying `K + 1` components and a delete or merge candidate
`K - 1`; and on rejection the loop stops with the incumbent state,
responsibility and message length unchanged. -/
theorem kasarapu_allison_round_spec {D : ℕ}
    (svdV0 : Matrix (Fin D) (Fin D) ℝ → (Fin D → ℝ)) (covt : CovName)
    (threshold : ℝ) (maxIter : ℕ) (y : List (Fin D → ℝ))
    (st : mixture_ka.KAState D) (R : List (List ℝ)) (mindl : ℝ) (K : ℕ)
    (hmu : st.mu.length = K) (hcov : st.cov.length = K)
    (hw : st.weight.length = K) (hR : R.length = K) (hK : 1 ≤ K) :
    (mixture_ka.splitCandidates svdV0 covt threshold maxIter y st R).length = K ∧
    (mixture_ka.deleteCandidates covt threshold maxIter y st R).length = K ∧
    (mixture_ka.mergeCandidates covt threshold maxIter y st R).length = K ∧
    (mixture_ka.allCandidates svdV0 covt threshold maxIter y st R).length =
      (if 1 < K then 3 * K else K) ∧
    mixture_ka.bestCandidate svdV0 covt threshold maxIter y st R ∈
      mixture_ka.allCandidates svdV0 covt threshold maxIter y st R ∧
    (∀ c ∈ mixture_ka.allCandidates svdV0 covt threshold maxIter y st R,
      (mixture_ka.bestCandidate svdV0 covt threshold maxIter y st R).res.dl ≤ c.res.dl) ∧
    (∀ c ∈ mixture_ka.allCandidates svdV0 covt threshold maxIter y st R,
      (c.op = mixture_ka.PerturbOp.split → c.res.state.weight.length = K + 1) ∧
      (c.op = mixture_ka.PerturbOp.delete → c.res.state.weight.length = K - 1) ∧
      (c.op = mixture_ka.PerturbOp.merge → c.res.state.weight.length = K - 1)) ∧
    ((mixture_ka.bestCandidate svdV0 covt threshold maxIter y st R).res.dl < mindl →
      mixture_ka.searchRound svdV0 covt threshold maxIter y st R mindl =
        some (mixture_ka.bestCandidate svdV0 covt threshold maxIter y st R) ∧
      ∀ fuel, mixture_ka.searchLoop svdV0 covt threshold maxIter y (fuel + 1) st R mindl =
        mixture_ka.searchLoop svdV0 covt threshold maxIter y fuel
          (mixture_ka.bestCandidate svdV0 covt threshold maxIter y st R).res.state
          (mixture_ka.bestCandidate svdV0 covt threshold maxIter y st R).res.resp
          (mixture_ka.bestCandidate svdV0 covt threshold maxIter y st R).res.dl) ∧
    (mindl ≤ (mixture_ka.bestCandidate svdV0 covt threshold maxIter y st R).res.dl →
      mixture_ka.searchRound svdV0 covt threshold maxIter y st R mindl = none ∧
      ∀ fuel, mixture_ka.searchLoop svdV0 covt threshold maxIter y (fuel + 1) st R mindl =
        (st, R, mindl)) := by
  have hlenS : (mixture_ka.splitCandidates svdV0 covt threshold maxIter y st R).length = K := by
    unfold mixture_ka.splitCandidates
    simp [hw]
  have hlenD : (mixture_ka.deleteCandidates covt threshold maxIter y st R).length = K := by
    unfold mixture_ka.deleteCandidates
    simp [hw]
  have hlenM : (mixture_ka.mergeCandidates covt threshold maxIter y st R).length = K := by
    unfold mixture_ka.mergeCandidates
    simp [hw]
  have hlenAll : (mixture_ka.allCandidates svdV0 covt threshold maxIter y st R).length =
      (if 1 < K then 3 * K else K) := by
    unfold mixture_ka.allCandidates
    rw [List.length_append, hlenS, hw]
    by_cases h1 : 1 < K
    · rw [if_pos h1, if_pos h1, List.length_append, hlenD, hlenM]
      omega
    · rw [if_neg h1, if_neg h1]
      simp
  have hne : mixture_ka.allCandidates svdV0 covt threshold maxIter y st R ≠ [] := by
    intro hnil
    have hlen0 := congrArg List.length hnil
    rw [hlenAll] at hlen0
    by_cases h1 : 1 < K
    · rw [if_pos h1] at hlen0
      simp at hlen0
      omega
    · rw [if_neg h1] at hlen0
      simp at hlen0
      omega
  obtain ⟨c0, cs, hpe⟩ := List.exists_cons_of_ne_nil hne
  have hbest : mixture_ka.bestCandidate svdV0 covt threshold maxIter y st R =
      minBy (fun c : mixture_ka.KACand D => c.res.dl) c0 cs := by
    unfold mixture_ka.bestCandidate
    rw [hpe]
  have hmem : mixture_ka.bestCandidate svdV0 covt threshold maxIter y st R ∈
      mixture_ka.allCandidates svdV0 covt threshold maxIter y st R := by
    rw [hbest, hpe]
    exact minBy_mem _ c0 cs
  have hle : ∀ c ∈ mixture_ka.allCandidates svdV0 covt threshold maxIter y st R,
      (mixture_ka.bestCandidate svdV0 covt threshold maxIter y st R).res.dl ≤ c.res.dl := by
    intro c hc
    rw [hpe] at hc
    rw [hbest]
    exact minBy_le (fun c : mixture_ka.KACand D => c.res.dl) c0 cs c hc
  have hops : ∀ c ∈ mixture_ka.allCandidates svdV0 covt threshold maxIter y st R,
      (c.op = mixture_ka.PerturbOp.split → c.res.state.weight.length = K + 1) ∧
      (c.op = mixture_ka.PerturbOp.delete → c.res.state.weight.length = K - 1) ∧
      (c.op = mixture_ka.PerturbOp.merge → c.res.state.weight.length = K - 1) := by
    intro c hc
    unfold mixture_ka.allCandidates at hc
    rcases List.mem_append.1 hc with hsplit | hrest
    · unfold mixture_ka.splitCandidates at hsplit
      obtain ⟨m, _, rfl⟩ := List.mem_map.1 hsplit
      refine ⟨fun _ => ?_, fun h => mixture_ka.PerturbOp.noConfusion h,
        fun h => mixture_ka.PerturbOp.noConfusion h⟩
      exact split_component_weight_length svdV0 covt threshold maxIter y st R m K
        hmu hcov hw hR hK
    · by_cases hKK : 1 < st.weight.length
      · rw [if_pos hKK] at hrest
        have hK2 : 2 ≤ K := by
          rw [hw] at hKK
          omega
        rcases List.mem_append.1 hrest with hdel | hmerge
        · unfold mixture_ka.deleteCandidates at hdel
          obtain ⟨m, hmr, rfl⟩ := List.mem_map.1 hdel
          have hmK : m < K := by
            have := List.mem_range.1 hmr
            rw [hw] at this
            exact this
          exact ⟨fun h => mixture_ka.PerturbOp.noConfusion h, fun _ =>
            delete_component_weight_length covt threshold maxIter y st R m K
              hmu hcov hw hR hmK,
            fun h => mixture_ka.PerturbOp.noConfusion h⟩
        · unfold mixture_ka.mergeCandidates at hmerge
          obtain ⟨m, hmr, rfl⟩ := List.mem_map.1 hmerge
          have hmK : m < K := by
            have := List.mem_range.1 hmr
            rw [hw] at this
            exact this
          exact ⟨fun h => mixture_ka.PerturbOp.noConfusion h, fun h => mixture_ka.PerturbOp.noConfusion h,
            fun _ => merge_component_weight_length covt threshold maxIter y st R m K
              hmu hcov hw hR hK2 hmK⟩
      · rw [if_neg hKK] at hrest
        simp at hrest
  have hempty : (mixture_ka.allCandidates svdV0 covt threshold maxIter y st R).isEmpty = false := by
    rw [hpe]
    rfl
  refine ⟨hlenS, hlenD, hlenM, hlenAll, hmem, hle, hops, ?_, ?_⟩
  · intro hacc
    have hround : mixture_ka.searchRound svdV0 covt threshold maxIter y st R mindl =
        some (mixture_ka.bestCandidate svdV0 covt threshold maxIter y st R) := by
      unfold mixture_ka.searchRound
      rw [hempty]
      simp only [Bool.false_eq_true, if_false]
      rw [if_pos hacc]
    refine ⟨hround, fun fuel => ?_⟩
    simp only [mixture_ka.searchLoop]
    rw [hround]
  · intro hrej
    have hround : mixture_ka.searchRound svdV0 covt threshold maxIter y st R mindl = none := by
      unfold mixture_ka.searchRound
      rw [hempty]
      simp only [Bool.false_eq_true, if_false]
      rw [if_neg (not_lt.2 hrej)]
    refine ⟨hround, fun fuel => ?_⟩
    simp only [mixture_ka.searchLoop]
    rw [hround]

theorem kasarapu_allison_round_spec_witness :
    ((⟨[fun _ : Fin 1 => (0 : ℝ)], [(1 : Matrix (Fin 1) (Fin 1) ℝ)], [(1 : ℝ)]⟩ :
        mixture_ka.KAState 1).mu.length = 1) ∧
    ((⟨[fun _ : Fin 1 => (0 : ℝ)], [(1 : Matrix (Fin 1) (Fin 1) ℝ)], [(1 : ℝ)]⟩ :
        mixture_ka.KAState 1).cov.length = 1) ∧
    ((⟨[fun _ : Fin 1 => (0 : ℝ)], [(1 : Matrix (Fin 1) (Fin 1) ℝ)], [(1 : ℝ)]⟩ :
        mixture_ka.KAState 1).weight.length = 1) ∧
    (([[(1 : ℝ)]] : List (List ℝ)).length = 1) ∧
    (1 : ℕ) ≤ 1 ∧
    (mixture_ka.splitCandidates (fun _ => fun _ => 0) CovName.free (1 / 100000) 10
      [fun _ : Fin 1 => (0 : ℝ)]
      (⟨[fun _ : Fin 1 => (0 : ℝ)], [(1 : Matrix (Fin 1) (Fin 1) ℝ)], [(1 : ℝ)]⟩ :
        mixture_ka.KAState 1) [[(1 : ℝ)]]).length = 1 :=
  ⟨rfl, rfl, rfl, rfl, le_refl 1,
    (kasarapu_allison_round_spec (fun _ => fun _ => 0) CovName.free (1 / 100000) 10
      [fun _ : Fin 1 => (0 : ℝ)]
      (⟨[fun _ : Fin 1 => (0 : ℝ)], [(1 : Matrix (Fin 1) (Fin 1) ℝ)], [(1 : ℝ)]⟩ :
        mixture_ka.KAState 1) [[(1 : ℝ)]] 0 1 rfl rfl rfl rfl (le_refl 1)).1⟩

end Snob

end
